import Mathlib

/-!
Verification development for the sprite_game colony-simulation engine.

The definitions below are a shallow embedding of the engine variant that the
specification mandates (the zustand store with BFS pathfinding, nearest-task
assignment and refund-on-abandon; `src/unnamed/part_006`, second document,
together with the type declarations in `src/src/types/index.ts`).

Modelling conventions:
* JavaScript numbers used as tile coordinates, wood counts and tick counters
  are embedded as `Int` (all arithmetic performed on them is integral).
* `Math.random()` is embedded as an injected stream `g : Nat -> Rat` of draws
  in `[0,1)`; every call site consumes the next index of the stream.
  Fractional constants (0.12, 0.10, 0.70) are embedded as exact rationals;
  the one comparison a claim depends on (coverage >= 0.70) is monotone, so
  the exact-rational embedding agrees with IEEE doubles in the direction the
  claim states.
* `Date.now()` is embedded as an injected `now : Int` argument.
* JavaScript `Set`/`Map` keyed by the string "x,y" are embedded as lists of
  positions / association lists keyed by the position pair (the string key is
  injective on integer pairs).
* `map[y]?.[x]` optional-chaining is embedded as `Option`-returning access.
* Module-level mutable counters (`taskIdCounter`, `announcementIdCounter`,
  `workerIdCounter`) are embedded as fields of the store state.
-/

namespace SpriteGame

attribute [local semireducible] Rat.mul Rat.add Rat.sub Rat.inv

/-- Tile types, from `src/src/types/index.ts`. -/
inductive TileType where
  | grass
  | tree
  | wall
  | door
  | bed
  | fireplace
deriving DecidableEq

/-- BUILD_COSTS from `src/src/types/index.ts`; lookup of a key that is absent
from the record yields 0 via the source's `|| 0` fallback, hence grass and
tree map to 0. -/
def buildCostOf : TileType → Int
  | .wall => 1
  | .door => 10
  | .bed => 10
  | .fireplace => 10
  | .grass => 0
  | .tree => 0

/-- Embeds `BUILD_COSTS[task.buildType || ''] || 0`: a missing buildType looks up the
empty key and falls back to 0. -/
def buildCostOpt : Option TileType → Int
  | none => 0
  | some t => buildCostOf t

/-- TREE_DENSITY = 0.12. -/
def TREE_DENSITY : ℚ := 12 / 100

/-- BASE_PROPAGATION_CHANCE = 0.10. -/
def BASE_PROPAGATION_CHANCE : ℚ := 10 / 100

/-- MAX_TREE_COVERAGE = 0.70. -/
def MAX_TREE_COVERAGE : ℚ := 70 / 100

/-- PROPAGATION_RADIUS = 3. -/
def PROPAGATION_RADIUS : Int := 3

/-- PROPAGATION_INTERVAL = 100. -/
def PROPAGATION_INTERVAL : Int := 100

/-- WORKER_SPAWN_INTERVAL = 10. -/
def WORKER_SPAWN_INTERVAL : Int := 10

/-- WORKER_SPAWN_CHANCE = 0.10. -/
def WORKER_SPAWN_CHANCE : ℚ := 10 / 100

/-- MAX_WORKERS = 2. -/
def MAX_WORKERS : Int := 2

/-- Modelled from the spec: `WARMTH_RADIUS` is imported from `../types`, but
the types module present in `src/` is an earlier revision that does not yet
declare it; the spec only describes it as "a bounded number of steps"
(glossary) for the warmth flood fill. No claim depends on its value; we fix
a representative positive radius. -/
def WARMTH_RADIUS : Nat := 5

/-- A tile of the grid, from `src/src/types/index.ts`. -/
structure Tile where
  type : TileType
  x : Int
  y : Int
deriving DecidableEq

/-- Task type tags. -/
inductive TaskType where
  | chop
  | build
deriving DecidableEq

/-- A queued unit of work, from `src/src/types/index.ts`; `buildType` is set
only for build tasks. -/
structure Task where
  id : String
  type : TaskType
  x : Int
  y : Int
  buildType : Option TileType := none
deriving DecidableEq

/-- Agent display states. -/
inductive AgentState where
  | idle
  | moving
  | chopping
  | building
deriving DecidableEq

/-- A worker agent (second store variant: includes `isWarm`). -/
structure Agent where
  id : String
  x : Int
  y : Int
  state : AgentState
  targetX : Option Int
  targetY : Option Int
  currentTask : Option Task
  isWarm : Bool
deriving DecidableEq

/-- An announcement entry. -/
structure Announcement where
  id : Int
  message : String
  timestamp : Int
deriving DecidableEq

/-- A selected tile (UI state). -/
structure Selection where
  x : Int
  y : Int
  tile : Tile
deriving DecidableEq

/-- Positions. -/
abbrev Pos := Int × Int

/-- The game map: a row-major list of rows, accessed as `map[y][x]`. -/
abbrev GameMap := List (List Tile)

/-- Embeds `map[y]?.[x]`: optional-chaining tile access. Negative or too-large
indices yield `none`, as in JavaScript. -/
def tileAt (map : GameMap) (x y : Int) : Option Tile :=
  if y < 0 ∨ x < 0 then none
  else match map.get? y.toNat with
    | none => none
    | some row => row.get? x.toNat

/-- Embeds `map[y]?.[x]?.type`. -/
def tileTypeAt (map : GameMap) (x y : Int) : Option TileType :=
  (tileAt map x y).map Tile.type

/-- In-place mutation `map[y][x].type = t`, embedded as a functional update.
Out-of-range indices leave the map unchanged (the source only performs this
write on indices it has already read successfully). -/
def setTileType (map : GameMap) (x y : Int) (t : TileType) : GameMap :=
  if y < 0 ∨ x < 0 then map
  else map.set y.toNat
    (match map.get? y.toNat with
      | none => []
      | some row =>
        row.set x.toNat
          (match row.get? x.toNat with
            | none => { type := t, x := x, y := y }
            | some tile => { tile with type := t }))

/-- Embeds `isBlocking` (second variant, lines 793-798): out-of-bounds or missing
tiles block; otherwise only walls block. -/
def isBlocking (map : GameMap) (x y : Int) (gridWidth gridHeight : Int) : Bool :=
  if x < 0 ∨ x ≥ gridWidth ∨ y < 0 ∨ y ≥ gridHeight then true
  else match tileAt map x y with
    | none => true
    | some tile => tile.type = TileType.wall

/-- Embeds `blocksWarmth`: walls and doors block warmth. -/
def blocksWarmth (t : TileType) : Bool :=
  t = TileType.wall ∨ t = TileType.door

/-- The four BFS expansion directions, in source order: up, down, left,
right. -/
def directions : List (Int × Int) :=
  [(0, -1), (0, 1), (-1, 0), (1, 0)]

/-- Association-list lookup for the `cameFrom` map. -/
def alookup (l : List (Pos × Pos)) (p : Pos) : Option Pos :=
  match l with
  | [] => none
  | (q, v) :: rest => if q = p then some v else alookup rest p

/-- Path reconstruction (`findPath`, lines 856-864): walk `cameFrom` links
from the found target back until the predecessor is the start; return that
first step. Fuel bounds the walk (in the source the walk terminates because
the links form a tree rooted at the start). -/
def reconstruct (fuel : Nat) (cf : List (Pos × Pos)) (start curr : Pos) : Pos :=
  match fuel with
  | 0 => curr
  | fuel + 1 =>
    match alookup cf curr with
    | none => curr
    | some prev => if prev = start then curr else reconstruct fuel cf start prev

/-- Result of expanding one queue entry: either the function's early return
value (the reconstructed first step) or the updated BFS state. -/
inductive ExpandResult where
  | found (step : Pos)
  | cont (visited : List Pos) (cameFrom : List (Pos × Pos)) (enqueued : List Pos)

/-- The body of `findPath`'s `for (const {dx,dy} of directions)` loop over
one dequeued cell `c`: skip visited and out-of-bounds neighbors, block walls
except at the target, record visited/cameFrom, and either early-return the
reconstructed first step upon reaching the target or enqueue the neighbor. -/
def expandDirs (map : GameMap) (W H : Int) (start target c : Pos) :
    List (Int × Int) → List Pos → List (Pos × Pos) → List Pos → ExpandResult
  | [], V, cf, acc => .cont V cf acc
  | d :: ds, V, cf, acc =>
    let n : Pos := (c.1 + d.1, c.2 + d.2)
    if n ∈ V then expandDirs map W H start target c ds V cf acc
    else if n.1 < 0 ∨ n.1 ≥ W ∨ n.2 < 0 ∨ n.2 ≥ H then
      expandDirs map W H start target c ds V cf acc
    else if n ≠ target ∧ isBlocking map n.1 n.2 W H then
      expandDirs map W H start target c ds V cf acc
    else
      let cf' := (n, c) :: cf
      if n = target then .found (reconstruct (cf'.length + 1) cf' start n)
      else expandDirs map W H start target c ds (n :: V) cf' (acc ++ [n])

/-- The `while (queue.length > 0)` loop of `findPath`. Fuel makes the
recursion structural; `findPath` supplies enough fuel that it is never
exhausted (each iteration pops one entry, and entries are enqueued at most
once per cell). -/
def bfsLoop (map : GameMap) (W H : Int) (start target : Pos) :
    Nat → List Pos → List (Pos × Pos) → List Pos → Option Pos
  | 0, _, _, _ => none
  | _ + 1, _, _, [] => none
  | fuel + 1, V, cf, c :: rest =>
    match expandDirs map W H start target c directions V cf [] with
    | .found step => some step
    | .cont V' cf' enq => bfsLoop map W H start target fuel V' cf' (rest ++ enq)

/-- Embeds `findPath` (second variant, lines 806-873): BFS over 4-connected
neighbors returning the next step toward the target, `some start` if already
there, or `none` if no path exists. -/
def findPath (startX startY targetX targetY : Int) (map : GameMap)
    (gridWidth gridHeight : Int) : Option Pos :=
  if startX = targetX ∧ startY = targetY then some (startX, startY)
  else
    bfsLoop map gridWidth gridHeight (startX, startY) (targetX, targetY)
      (2 * gridWidth.toNat * gridHeight.toNat + 2)
      [(startX, startY)] [] [(startX, startY)]

/-- Integer offsets `-r, ..., r` for the square-neighborhood scans. -/
def offsets (r : Int) : List Int :=
  (List.range (2 * r + 1).toNat).map fun i => (i : Int) - r

/-- Embeds `generateMap`: each cell independently becomes a tree with probability
TREE_DENSITY; cells consume the random stream in row-major order. -/
def generateMap (g : Nat → ℚ) (width height : Int) : GameMap :=
  (List.range height.toNat).map fun y =>
    (List.range width.toNat).map fun x =>
      { type := if g (y * width.toNat + x) < TREE_DENSITY then TileType.tree else TileType.grass,
        x := (x : Int), y := (y : Int) }

/-- The grass tiles of the map, scanned row-major (used by
`createInitialAgent`). -/
def grassTilesOf (map : GameMap) (W H : Int) : List Pos :=
  (List.range H.toNat).flatMap fun (y : Nat) =>
    (List.range W.toNat).filterMap fun (x : Nat) =>
      if tileTypeAt map (x : Int) (y : Int) = some TileType.grass then
        some ((x : Int), (y : Int))
      else none

/-- Embeds `createInitialAgent`: a single starting agent on a random grass tile,
falling back to (0,0) when the random index misses. -/
def createInitialAgent (r : ℚ) (map : GameMap) (W H : Int) : Agent :=
  let grassTiles := grassTilesOf map W H
  let startPos := grassTiles.getD (Int.floor (r * grassTiles.length)).toNat (0, 0)
  { id := "agent-1", x := startPos.1, y := startPos.2, state := .idle,
    targetX := none, targetY := none, currentTask := none, isWarm := false }

/-- Embeds `getValidSpawnTiles`: grass tiles in the square of the given radius
around a center, excluding the center itself. -/
def getValidSpawnTiles (map : GameMap) (centerX centerY radius W H : Int) :
    List Pos :=
  (offsets radius).flatMap fun dy =>
    (offsets radius).filterMap fun dx =>
      if dx = 0 ∧ dy = 0 then none
      else
        let x := centerX + dx
        let y := centerY + dy
        if x < 0 ∨ x ≥ W ∨ y < 0 ∨ y ≥ H then none
        else if tileTypeAt map x y = some TileType.grass then some (x, y)
        else none

/-- Embeds `countTrees`: number of tree tiles over the whole map. -/
def countTrees (map : GameMap) : Nat :=
  (map.map fun row => (row.filter fun t => t.type = TileType.tree).length).sum

/-- Row-major list of all grid coordinates (y outer, x inner), mirroring the
source's nested `for` loops. -/
def allCoords (W H : Int) : List Pos :=
  (List.range H.toNat).flatMap fun y =>
    (List.range W.toNat).map fun x => ((x : Int), (y : Int))

/-- The tree-rolling loop of `propagateTrees`: every tree tile rolls one
random draw against the adjusted chance and, on success, one more draw to
pick a nominated grass tile. Returns the nomination list and the next unused
random index. -/
def propLoop (g : Nat → ℚ) (map : GameMap) (W H : Int) (chance : ℚ) :
    List Pos → Nat → List Pos → List Pos × Nat
  | [], idx, acc => (acc, idx)
  | (x, y) :: rest, idx, acc =>
    if tileTypeAt map x y = some TileType.tree then
      if g idx < chance then
        let validSpawns := getValidSpawnTiles map x y PROPAGATION_RADIUS W H
        if validSpawns.length > 0 then
          let spawn :=
            validSpawns.getD (Int.floor (g (idx + 1) * validSpawns.length)).toNat (0, 0)
          propLoop g map W H chance rest (idx + 2) (acc ++ [spawn])
        else propLoop g map W H chance rest (idx + 2) acc
      else propLoop g map W H chance rest (idx + 1) acc
    else propLoop g map W H chance rest idx acc

/-- Application loop of `propagateTrees`: nominated tiles that are still
grass become trees; others are skipped silently. -/
def applyTreeList : List Pos → GameMap → Int → GameMap × Int
  | [], m, c => (m, c)
  | (x, y) :: rest, m, c =>
    if tileTypeAt m x y = some TileType.grass then
      applyTreeList rest (setTileType m x y TileType.tree) (c + 1)
    else applyTreeList rest m c

/-- Embeds `propagateTrees` (second variant, lines 944-994). Returns the new map,
the count of trees actually added, and the next unused random index. -/
def propagateTrees (g : Nat → ℚ) (idx0 : Nat) (map : GameMap) (W H : Int) :
    GameMap × Int × Nat :=
  let totalTiles : Int := W * H
  let treeCount : Nat := countTrees map
  let currentCoverage : ℚ := (treeCount : ℚ) / (totalTiles : ℚ)
  if currentCoverage ≥ MAX_TREE_COVERAGE then (map, 0, idx0)
  else
    let coverageRatio := currentCoverage / MAX_TREE_COVERAGE
    let adjustedChance := BASE_PROPAGATION_CHANCE * (1 - coverageRatio)
    let res := propLoop g map W H adjustedChance (allCoords W H) idx0 []
    if res.1.length > 0 then
      let applied := applyTreeList res.1 map 0
      (applied.1, applied.2, res.2)
    else (map, 0, res.2)

/-- Embeds `findFireplaces`: all fireplace coordinates, row-major. -/
def findFireplaces (map : GameMap) (W H : Int) : List Pos :=
  (List.range H.toNat).flatMap fun y =>
    (List.range W.toNat).filterMap fun x =>
      if tileTypeAt map (x : Int) (y : Int) = some TileType.fireplace then
        some ((x : Int), (y : Int))
      else none

/-- Embeds `findSpawnNearFireplace`: an unoccupied grass tile within the 2-radius
square of a fireplace, picked at random, or `none` when none exists. -/
def findSpawnNearFireplace (r : ℚ) (map : GameMap) (fireplace : Pos)
    (agents : List Agent) (W H : Int) : Option Pos :=
  let validSpots :=
    (offsets 2).flatMap fun dy =>
      (offsets 2).filterMap fun dx =>
        if dx = 0 ∧ dy = 0 then none
        else
          let x := fireplace.1 + dx
          let y := fireplace.2 + dy
          if x < 0 ∨ x ≥ W ∨ y < 0 ∨ y ≥ H then none
          else if tileTypeAt map x y ≠ some TileType.grass then none
          else if agents.any fun a => a.x = x ∧ a.y = y then none
          else some (x, y)
  if validSpots.length = 0 then none
  else some (validSpots.getD (Int.floor (r * validSpots.length)).toNat (0, 0))

/-- Insertion into the warm-tile set (JS `Set.add`: append if absent). -/
def warmAdd (l : List Pos) (p : Pos) : List Pos :=
  if p ∈ l then l else l ++ [p]

/-- The direction loop of one warmth-BFS step: unvisited, in-bounds
neighbors that do not block warmth are enqueued at distance +1. -/
def warmExpand (map : GameMap) (W H : Int) (c : Pos) (dist : Nat) :
    List (Int × Int) → List Pos → List (Pos × Nat) → List Pos × List (Pos × Nat)
  | [], visited, acc => (visited, acc)
  | d :: ds, visited, acc =>
    let n : Pos := (c.1 + d.1, c.2 + d.2)
    if n ∈ visited then warmExpand map W H c dist ds visited acc
    else if n.1 < 0 ∨ n.1 ≥ W ∨ n.2 < 0 ∨ n.2 ≥ H then
      warmExpand map W H c dist ds visited acc
    else
      match tileTypeAt map n.1 n.2 with
      | none => warmExpand map W H c dist ds visited acc
      | some t =>
        if blocksWarmth t then warmExpand map W H c dist ds visited acc
        else warmExpand map W H c dist ds (n :: visited) (acc ++ [(n, dist + 1)])

/-- The per-fireplace bounded BFS of `calculateWarmTiles`. -/
def warmBfs (map : GameMap) (W H : Int) :
    Nat → List Pos → List (Pos × Nat) → List Pos → List Pos
  | 0, _, _, warm => warm
  | _ + 1, _, [], warm => warm
  | fuel + 1, visited, (c, dist) :: rest, warm =>
    let warm' := warmAdd warm c
    if WARMTH_RADIUS ≤ dist then warmBfs map W H fuel visited rest warm'
    else
      let e := warmExpand map W H c dist directions visited []
      warmBfs map W H fuel e.1 (rest ++ e.2) warm'

/-- Embeds `calculateWarmTiles` (second variant, lines 1014-1062): union of bounded
4-connected flood fills from every fireplace, blocked by walls and doors. -/
def calculateWarmTiles (map : GameMap) (W H : Int) : List Pos :=
  (allCoords W H).foldl
    (fun warm p =>
      if tileTypeAt map p.1 p.2 = some TileType.fireplace then
        warmBfs map W H (2 * W.toNat * H.toNat + 2) [p] [(p, 0)] warm
      else warm)
    []

/-- The whole engine store: the zustand state fields plus the module-level
id counters. -/
structure GameState where
  gridWidth : Int
  gridHeight : Int
  map : GameMap
  agents : List Agent
  taskQueue : List Task
  wood : Int
  tickCount : Int
  isRunning : Bool
  selection : Option Selection
  multiSelection : List Tile
  contextMenuPos : Option (Int × Int)
  ignoreTileClicks : Bool
  buildMode : Bool
  selectedBuildType : Option TileType
  announcements : List Announcement
  warmTiles : List Pos
  taskIdCounter : Int
  annIdCounter : Int
  workerIdCounter : Int
deriving DecidableEq

/-- The store's initial field values (the object literal passed to
`create`), with the module-level counters at their declaration values. -/
def defaultStore : GameState where
  gridWidth := 20
  gridHeight := 15
  map := []
  agents := []
  taskQueue := []
  wood := 0
  tickCount := 0
  isRunning := false
  selection := none
  multiSelection := []
  contextMenuPos := none
  ignoreTileClicks := false
  buildMode := false
  selectedBuildType := none
  announcements := []
  warmTiles := []
  taskIdCounter := 0
  annIdCounter := 0
  workerIdCounter := 1

/-- Embeds `initializeGame` (second variant, lines 1113-1137). Note that the `set`
call does not mention `warmTiles`; zustand merges partial updates, so that
field keeps its previous value, which the `with` update mirrors. -/
def initializeGame (g : Nat → ℚ) (width height : Int) (s : GameState) :
    GameState :=
  let map := generateMap g width height
  let agent := createInitialAgent (g (width.toNat * height.toNat)) map width height
  { s with
    gridWidth := width, gridHeight := height, map := map, agents := [agent],
    taskQueue := [], wood := 0, tickCount := 0, isRunning := false,
    selection := none, multiSelection := [], contextMenuPos := none,
    ignoreTileClicks := false, buildMode := false, selectedBuildType := none,
    announcements := [],
    taskIdCounter := 0, annIdCounter := 0, workerIdCounter := 1 }

/-- Mutable context threaded through one tick's agent loop (the `newMap`,
`newWood`, `newTaskQueue`, `newAnnouncements` locals and the announcement id
counter, plus the injected clock). -/
structure TickCtx where
  map : GameMap
  wood : Int
  taskQueue : List Task
  announcements : List Announcement
  annIdCounter : Int
  now : Int
deriving DecidableEq

/-- The `announce` helper of `tick`: push an announcement and keep only the
last five. -/
def announceCtx (ctx : TickCtx) (msg : String) : TickCtx :=
  let newId := ctx.annIdCounter + 1
  let anns := ctx.announcements ++ [{ id := newId, message := msg, timestamp := ctx.now }]
  { ctx with
    annIdCounter := newId,
    announcements := if anns.length > 5 then anns.drop (anns.length - 5) else anns }

/-- Render a tile type for the "Built ..." announcement. -/
def tileTypeName : TileType → String
  | .grass => "grass"
  | .tree => "tree"
  | .wall => "wall"
  | .door => "door"
  | .bed => "bed"
  | .fireplace => "fireplace"

/-- The `${count} new tree(s) grew` announcement text. -/
def treeGrowMessage (n : Int) : String :=
  toString n ++ " new tree" ++ (if n > 1 then "s" else "") ++ " grew"

/-- The task-scan loop of the idle-agent branch of `tick` (second variant,
lines 1211-1240): walks the queue with its indices, collecting invalid
indices, crediting refunds for invalid build tasks as it goes, and tracking
the strictly closest valid task (first encountered wins ties). Returns the
updated wood, the invalid indices, and `(bestDistance, bestIndex, bestTask)`
when a valid task exists. -/
def scanTasks (map : GameMap) (ax ay : Int) :
    List Task → Nat → Int → List Nat → Option (Int × Nat × Task) →
    Int × List Nat × Option (Int × Nat × Task)
  | [], _, wood, invalid, best => (wood, invalid, best)
  | task :: rest, i, wood, invalid, best =>
    match task.type with
    | .chop =>
      if tileTypeAt map task.x task.y = some TileType.tree then
        let dist := |task.x - ax| + |task.y - ay|
        let best' :=
          match best with
          | none => some (dist, i, task)
          | some (bd, bi, bt) =>
            if dist < bd then some (dist, i, task) else some (bd, bi, bt)
        scanTasks map ax ay rest (i + 1) wood invalid best'
      else scanTasks map ax ay rest (i + 1) wood (invalid ++ [i]) best
    | .build =>
      if tileTypeAt map task.x task.y = some TileType.grass then
        let dist := |task.x - ax| + |task.y - ay|
        let best' :=
          match best with
          | none => some (dist, i, task)
          | some (bd, bi, bt) =>
            if dist < bd then some (dist, i, task) else some (bd, bi, bt)
        scanTasks map ax ay rest (i + 1) wood invalid best'
      else
        scanTasks map ax ay rest (i + 1) (wood + buildCostOpt task.buildType)
          (invalid ++ [i]) best

/-- Clear an agent's target and task. -/
def clearTarget (a : Agent) : Agent :=
  { a with targetX := none, targetY := none, currentTask := none }

/-- The at-target branch of the per-agent update (second variant, lines
1267-1285): chop a tree (tile to grass, wood +10), or perform a pre-paid
build on grass, then clear target and task. -/
def agentWorkBranch (tx ty : Int) (agent : Agent) (ctx : TickCtx) :
    Agent × TickCtx :=
  let tt := tileTypeAt ctx.map tx ty
  if tt = some TileType.tree then
    (clearTarget { agent with state := .chopping },
     { ctx with map := setTileType ctx.map tx ty TileType.grass,
                wood := ctx.wood + 10 })
  else
    match agent.currentTask with
    | some t =>
      match t.buildType with
      | some bt =>
        if t.type = TaskType.build ∧ tt = some TileType.grass then
          (clearTarget { agent with state := .building },
           announceCtx { ctx with map := setTileType ctx.map tx ty bt }
             ("Built " ++ tileTypeName bt))
        else (clearTarget agent, ctx)
      | none => (clearTarget agent, ctx)
    | none => (clearTarget agent, ctx)

/-- The abandonment effect on the shared context (second variant, lines
1304-1313): refund a build task's cost, or push a chop task back onto the
queue. -/
def abandonCtx (agent : Agent) (ctx : TickCtx) : TickCtx :=
  match agent.currentTask with
  | some t =>
    if t.type = TaskType.build then
      { ctx with wood := ctx.wood + buildCostOpt t.buildType }
    else { ctx with taskQueue := ctx.taskQueue ++ [t] }
  | none => ctx

/-- The movement branch of the per-agent update (second variant, lines
1286-1319): take the next pathfinding step, or abandon the task (build tasks
are refunded, chop tasks re-queued) when no progress is possible. -/
def agentMoveBranch (W H tx ty : Int) (agent : Agent) (ctx : TickCtx) :
    Agent × TickCtx :=
  let abandoned := (clearTarget { agent with state := .idle }, abandonCtx agent ctx)
  match findPath agent.x agent.y tx ty ctx.map W H with
  | some step =>
    if step.1 ≠ agent.x ∨ step.2 ≠ agent.y then
      ({ agent with state := .moving, x := step.1, y := step.2 }, ctx)
    else abandoned
  | none => abandoned

/-- The no-target branch of the per-agent update (second variant, lines
1202-1260): scan the queue for the closest valid task (refunding invalid
build tasks as the scan walks), assign it, or prune invalid entries when no
valid task exists. -/
def agentScanBranch (agent : Agent) (ctx : TickCtx) : Agent × TickCtx :=
  if ctx.taskQueue.length > 0 then
    let scan := scanTasks ctx.map agent.x agent.y ctx.taskQueue 0 ctx.wood [] none
    match scan.2.2 with
    | some (_, bi, bt) =>
      ({ agent with targetX := some bt.x, targetY := some bt.y,
                    state := .moving, currentTask := some bt },
       { ctx with wood := scan.1, taskQueue := ctx.taskQueue.eraseIdx bi })
    | none =>
      let invalid := scan.2.1
      let unaffordableIndices : List Nat := []
      let validTasks :=
        (ctx.taskQueue.enum.filter fun p =>
          ¬ p.1 ∈ invalid ∧ ¬ p.1 ∈ unaffordableIndices).map Prod.snd
      let unaffordableTasks :=
        (ctx.taskQueue.enum.filter fun p => p.1 ∈ unaffordableIndices).map Prod.snd
      ({ agent with state := .idle },
       { ctx with wood := scan.1, taskQueue := validTasks ++ unaffordableTasks })
  else ({ agent with state := .idle }, ctx)

/-- The per-agent body of `tick`'s `newAgents.map` (second variant, lines
1198-1322), threading the shared mutable context. -/
def updateAgent (W H : Int) (ctx : TickCtx) (agent : Agent) : Agent × TickCtx :=
  match agent.targetX, agent.targetY with
  | some tx, some ty =>
    if agent.x = tx ∧ agent.y = ty then agentWorkBranch tx ty agent ctx
    else agentMoveBranch W H tx ty agent ctx
  | _, _ => agentScanBranch agent ctx

/-- The agent loop of `tick`: a `map` over the agent list whose closure
mutates the shared context, i.e. a map-with-accumulator. -/
def agentsLoop (W H : Int) : List Agent → TickCtx → List Agent × TickCtx
  | [], ctx => ([], ctx)
  | a :: rest, ctx =>
    let r := updateAgent W H ctx a
    let rr := agentsLoop W H rest r.2
    (r.1 :: rr.1, rr.2)

/-- The propagation phase of `tick`: on interval boundaries run
`propagateTrees` (random indices from 0) and announce growth. Returns the
updated context and the next unused random index. -/
def tickPropagation (g : Nat → ℚ) (W H newTickCount : Int) (ctx0 : TickCtx) :
    TickCtx × Nat :=
  if newTickCount % PROPAGATION_INTERVAL = 0 then
    let r := propagateTrees g 0 ctx0.map W H
    let ctx1 := { ctx0 with map := r.1 }
    (if r.2.1 > 0 then announceCtx ctx1 (treeGrowMessage r.2.1) else ctx1, r.2.2)
  else (ctx0, 0)

/-- The worker-spawn phase of `tick`: on interval boundaries and below
MAX_WORKERS, roll the spawn chance, pick a random fireplace and a nearby
free grass tile, and append the new idle agent. Returns the agent list, the
context and the worker id counter. -/
def tickSpawn (g : Nat → ℚ) (W H newTickCount workerId : Int)
    (agents : List Agent) (ridx : Nat) (ctx1 : TickCtx) :
    List Agent × TickCtx × Int :=
  if newTickCount % WORKER_SPAWN_INTERVAL = 0 ∧
      (agents.length : Int) < MAX_WORKERS then
    let fireplaces := findFireplaces ctx1.map W H
    if fireplaces.length > 0 then
      if g ridx < WORKER_SPAWN_CHANCE then
        let fireplace :=
          fireplaces.getD (Int.floor (g (ridx + 1) * fireplaces.length)).toNat (0, 0)
        match findSpawnNearFireplace (g (ridx + 2)) ctx1.map fireplace
            agents W H with
        | some pos =>
          (agents ++
             [{ id := "agent-" ++ toString (workerId + 1), x := pos.1, y := pos.2,
                state := .idle, targetX := none, targetY := none,
                currentTask := none, isWarm := false }],
           announceCtx ctx1 "A new visitor has arrived!", workerId + 1)
        | none => (agents, ctx1, workerId)
      else (agents, ctx1, workerId)
    else (agents, ctx1, workerId)
  else (agents, ctx1, workerId)

/-- Embeds `tick` (second variant, lines 1139-1343): tree propagation on interval,
worker spawning on interval, the per-agent update loop, then warm-tile
recomputation, committed as one state update. No-op while paused. -/
def tick (g : Nat → ℚ) (now : Int) (s : GameState) : GameState :=
  if ¬ s.isRunning then s
  else
    let newTickCount := s.tickCount + 1
    let ctx0 : TickCtx :=
      { map := s.map, wood := s.wood, taskQueue := s.taskQueue,
        announcements := s.announcements, annIdCounter := s.annIdCounter,
        now := now }
    let prop := tickPropagation g s.gridWidth s.gridHeight newTickCount ctx0
    let spawn := tickSpawn g s.gridWidth s.gridHeight newTickCount
      s.workerIdCounter s.agents prop.2 prop.1
    let loopRes := agentsLoop s.gridWidth s.gridHeight spawn.1 spawn.2.1
    let ctxF := loopRes.2
    let newWarmTiles := calculateWarmTiles ctxF.map s.gridWidth s.gridHeight
    let finalAgents := loopRes.1.map fun a =>
      { a with isWarm := decide ((a.x, a.y) ∈ newWarmTiles) }
    { s with
      map := ctxF.map, agents := finalAgents, taskQueue := ctxF.taskQueue,
      wood := ctxF.wood, tickCount := newTickCount,
      announcements := ctxF.announcements, annIdCounter := ctxF.annIdCounter,
      warmTiles := newWarmTiles, workerIdCounter := spawn.2.2 }

/-- Embeds `startSimulation`. -/
def startSimulation (s : GameState) : GameState := { s with isRunning := true }

/-- Embeds `stopSimulation`. -/
def stopSimulation (s : GameState) : GameState := { s with isRunning := false }

/-- Embeds `toggleSimulation`. -/
def toggleSimulation (s : GameState) : GameState :=
  { s with isRunning := !s.isRunning }

/-- Embeds `selectTile`. -/
def selectTile (x y screenX screenY : Int) (s : GameState) : GameState :=
  if 0 ≤ y ∧ y < (s.map.length : Int) ∧ 0 ≤ x ∧
      x < ((s.map.headD []).length : Int) then
    match tileAt s.map x y with
    | some tile =>
      { s with selection := some { x := x, y := y, tile := tile },
               multiSelection := [], contextMenuPos := some (screenX, screenY) }
    | none => s
  else s

/-- Embeds `setMultiSelection`. -/
def setMultiSelection (tiles : List Tile) (screenX screenY : Int)
    (s : GameState) : GameState :=
  { s with selection := none, multiSelection := tiles,
           contextMenuPos := if tiles.length > 0 then some (screenX, screenY) else none }

/-- Embeds `clearSelection`. -/
def clearSelection (s : GameState) : GameState :=
  { s with selection := none, multiSelection := [], contextMenuPos := none }

/-- Embeds `queueChopTask` (second variant, lines 1390-1408): no-op when a task
already targets (x,y) or the tile is not a tree; otherwise append a chop
task with the next task id. -/
def queueChopTask (x y : Int) (s : GameState) : GameState :=
  if s.taskQueue.any fun task => task.x = x ∧ task.y = y then s
  else if tileTypeAt s.map x y ≠ some TileType.tree then s
  else
    let newId := s.taskIdCounter + 1
    { s with
      taskIdCounter := newId,
      taskQueue := s.taskQueue ++
        [{ id := "task-" ++ toString newId, type := .chop, x := x, y := y }] }

/-- Embeds `isTaskQueued`: a task in the queue targets (x,y) or an agent currently
targets (x,y). -/
def isTaskQueued (x y : Int) (s : GameState) : Bool :=
  (s.taskQueue.any fun task => task.x = x ∧ task.y = y) ∨
  (s.agents.any fun a => a.targetX = some x ∧ a.targetY = some y)

/-- Embeds `chopSelectedTree`. -/
def chopSelectedTree (s : GameState) : GameState :=
  let s' :=
    match s.selection with
    | some sel => if sel.tile.type = TileType.tree then queueChopTask sel.x sel.y s else s
    | none => s
  { s' with selection := none, multiSelection := [], contextMenuPos := none }

/-- Embeds `chopSelectedTrees`. -/
def chopSelectedTrees (s : GameState) : GameState :=
  let trees := s.multiSelection.filter fun tile => tile.type = TileType.tree
  let s' := trees.foldl (fun st tile => queueChopTask tile.x tile.y st) s
  { s' with selection := none, multiSelection := [], contextMenuPos := none }

/-- Embeds `setIgnoreTileClicks`. -/
def setIgnoreTileClicks (ignore : Bool) (s : GameState) : GameState :=
  { s with ignoreTileClicks := ignore }

/-- Embeds `toggleBuildMode`. -/
def toggleBuildMode (s : GameState) : GameState :=
  { s with buildMode := !s.buildMode,
           selectedBuildType := if s.buildMode then none else some TileType.wall,
           selection := none, contextMenuPos := none }

/-- Embeds `selectBuildType`. -/
def selectBuildType (t : Option TileType) (s : GameState) : GameState :=
  { s with selectedBuildType := t }

/-- Embeds `buildAt` (second variant, lines 1443-1472): no-op without a selected
build type, on a non-grass tile, with a queued task at (x,y), or with
insufficient wood; otherwise the cost is debited immediately and a build
task is appended. -/
def buildAt (x y : Int) (s : GameState) : GameState :=
  match s.selectedBuildType with
  | none => s
  | some bt =>
    if tileTypeAt s.map x y ≠ some TileType.grass then s
    else if s.taskQueue.any fun task => task.x = x ∧ task.y = y then s
    else if s.wood < buildCostOf bt then s
    else
      let newId := s.taskIdCounter + 1
      { s with
        taskIdCounter := newId,
        taskQueue := s.taskQueue ++
          [{ id := "task-" ++ toString newId, type := .build, x := x, y := y,
             buildType := some bt }],
        wood := s.wood - buildCostOf bt }

/-- Embeds `addAnnouncement`. -/
def addAnnouncement (message : String) (now : Int) (s : GameState) : GameState :=
  let newId := s.annIdCounter + 1
  let anns := s.announcements ++ [{ id := newId, message := message, timestamp := now }]
  { s with annIdCounter := newId,
           announcements := if anns.length > 5 then anns.drop (anns.length - 5) else anns }

/-- Embeds `clearOldAnnouncements`. -/
def clearOldAnnouncements (now : Int) (s : GameState) : GameState :=
  let filtered := s.announcements.filter fun a => now - a.timestamp < 5000
  if filtered.length ≠ s.announcements.length then { s with announcements := filtered }
  else s

/-- Reachability: every state producible from initialization (with positive
grid dimensions, as supplied by the UI) by any interleaving of the store's
commands and ticks. The random stream and the clock are arbitrary at every
step. -/
inductive Reach : GameState → Prop where
  | boot (g : Nat → ℚ) (w h : Int) (hw : 1 ≤ w) (hh : 1 ≤ h) :
      Reach (initializeGame g w h defaultStore)
  | reinit (g : Nat → ℚ) (w h : Int) (hw : 1 ≤ w) (hh : 1 ≤ h) {s : GameState} :
      Reach s → Reach (initializeGame g w h s)
  | tickStep (g : Nat → ℚ) (now : Int) {s : GameState} :
      Reach s → Reach (tick g now s)
  | startStep {s : GameState} : Reach s → Reach (startSimulation s)
  | stopStep {s : GameState} : Reach s → Reach (stopSimulation s)
  | toggleStep {s : GameState} : Reach s → Reach (toggleSimulation s)
  | selectTileStep (x y sx sy : Int) {s : GameState} :
      Reach s → Reach (selectTile x y sx sy s)
  | setMultiStep (tiles : List Tile) (sx sy : Int) {s : GameState} :
      Reach s → Reach (setMultiSelection tiles sx sy s)
  | clearSelStep {s : GameState} : Reach s → Reach (clearSelection s)
  | chopSelStep {s : GameState} : Reach s → Reach (chopSelectedTree s)
  | chopSelManyStep {s : GameState} : Reach s → Reach (chopSelectedTrees s)
  | queueChopStep (x y : Int) {s : GameState} :
      Reach s → Reach (queueChopTask x y s)
  | ignoreClicksStep (b : Bool) {s : GameState} :
      Reach s → Reach (setIgnoreTileClicks b s)
  | toggleBuildStep {s : GameState} : Reach s → Reach (toggleBuildMode s)
  | selectBuildStep (t : Option TileType) {s : GameState} :
      Reach s → Reach (selectBuildType t s)
  | buildAtStep (x y : Int) {s : GameState} :
      Reach s → Reach (buildAt x y s)
  | addAnnStep (m : String) (now : Int) {s : GameState} :
      Reach s → Reach (addAnnouncement m now s)
  | clearAnnStep (now : Int) {s : GameState} :
      Reach s → Reach (clearOldAnnouncements now s)

/-- Guard of the amended C2: no agent currently targets (x,y). Together with
the queue check that the commands perform themselves, this is exactly the
`isTaskQueued` predicate the UI consults before offering a chop or build
action on a tile. -/
def noAgentTargets (s : GameState) (x y : Int) : Prop :=
  ∀ a ∈ s.agents, ¬(a.targetX = some x ∧ a.targetY = some y)

/-- Guarded reachability for the amended C2: the enqueue commands named by
the claim (queueChopTask / buildAt) are only issued on tiles no agent is
currently targeting; ticks and the remaining interleaved commands relevant
to those two are unrestricted. -/
inductive GReach : GameState → Prop where
  | boot (g : Nat → ℚ) (w h : Int) (hw : 1 ≤ w) (hh : 1 ≤ h) :
      GReach (initializeGame g w h defaultStore)
  | reinit (g : Nat → ℚ) (w h : Int) (hw : 1 ≤ w) (hh : 1 ≤ h) {s : GameState} :
      GReach s → GReach (initializeGame g w h s)
  | tickStep (g : Nat → ℚ) (now : Int) {s : GameState} :
      GReach s → GReach (tick g now s)
  | startStep {s : GameState} : GReach s → GReach (startSimulation s)
  | stopStep {s : GameState} : GReach s → GReach (stopSimulation s)
  | toggleStep {s : GameState} : GReach s → GReach (toggleSimulation s)
  | selectBuildStep (t : Option TileType) {s : GameState} :
      GReach s → GReach (selectBuildType t s)
  | queueChopStep (x y : Int) {s : GameState} :
      GReach s → noAgentTargets s x y → GReach (queueChopTask x y s)
  | buildAtStep (x y : Int) {s : GameState} :
      GReach s → noAgentTargets s x y → GReach (buildAt x y s)

/-- Positions of the queued tasks, in queue order. -/
def queuePositions (s : GameState) : List Pos :=
  s.taskQueue.map fun t => (t.x, t.y)

/-- Positions currently targeted by agents (both coordinates set). -/
def targetPositions (agents : List Agent) : List Pos :=
  agents.filterMap fun a =>
    match a.targetX, a.targetY with
    | some x, some y => some (x, y)
    | _, _ => none

/-- The position an agent's carried task occupies (zero or one entries). -/
def tposA (a : Agent) : List Pos :=
  match a.currentTask with
  | some t => [(t.x, t.y)]
  | none => []

/-- Positions of all the agents' carried tasks. -/
def taskPositions (agents : List Agent) : List Pos :=
  agents.flatMap tposA

/-- Positions of a task list. -/
def qpos (q : List Task) : List Pos := q.map fun t => (t.x, t.y)

/-- An agent whose target coordinates agree with its carried task. -/
def CoherentA (a : Agent) : Prop :=
  ∀ t, a.currentTask = some t →
    a.targetX = some t.x ∧ a.targetY = some t.y

/-- Every agent's target coordinates agree with its carried task. -/
def Coherent (agents : List Agent) : Prop :=
  ∀ a ∈ agents, CoherentA a

/-- The combined uniqueness invariant behind the amended C2: the queued and
the carried task positions are jointly duplicate-free, and targets track
tasks. -/
def QInv (s : GameState) : Prop :=
  (qpos s.taskQueue ++ taskPositions s.agents).Nodup ∧ Coherent s.agents

/-- A constant all-zeroes random stream used by the concrete traces. -/
def czero : Nat → ℚ := fun _ => 0

/-- Random stream for the C1 trace: a 4-by-1 map [grass, tree, grass, tree]
with the agent starting on (0,0). -/
def c1g : Nat → ℚ := fun n => if n = 1 ∨ n = 3 ∨ n = 4 then 0 else 1 / 2

/-- C1 trace, tick 99: the agent chopped the tree at (1,0) (wood 10) and has
been idle since; the grid is [grass, grass, grass, tree]. -/
def c1s99 : GameState :=
  (tick czero 0)^[99]
    (startSimulation (queueChopTask 1 0 (initializeGame c1g 4 1 defaultStore)))

/-- C1 trace, commands after tick 99: queue a wall build on (0,0) (wood
10 -> 9) and a chop of the tree at (3,0). -/
def c1s99c : GameState :=
  queueChopTask 3 0 (buildAt 0 0 (selectBuildType (some TileType.wall) c1s99))

/-- C1 trace, tick 100: propagation grows a tree onto (0,0), invalidating
the queued build task there; the idle agent's scan refunds it but, because a
valid chop task was also found, leaves it in the queue. -/
def c1s100 : GameState := tick czero 0 c1s99c

/-- C1 trace, tick 104: the agent finished the chop and its next idle scan
refunds the same build task a second time before pruning it. -/
def c1s104 : GameState := (tick czero 0)^[4] c1s100

/-- Random stream for the C2/C3 trace: a 4-by-2 map with trees at (2,0),
(3,0), (3,1) and the agent starting on (1,1). -/
def c2g : Nat → ℚ := fun n =>
  if n = 2 ∨ n = 3 ∨ n = 7 then 0 else if n = 8 then 13 / 20 else 1 / 2

/-- C2/C3 trace, tick 7: both reachable trees chopped (wood 20), agent idle
at (3,0). -/
def c2s7 : GameState :=
  (tick czero 0)^[7]
    (startSimulation
      (queueChopTask 3 0 (queueChopTask 2 0 (initializeGame c2g 4 2 defaultStore))))

/-- C2/C3 trace, tick 11: the agent walked to (1,0) and built a wall there,
and is now standing on the wall it built. -/
def c2s11 : GameState :=
  (tick czero 0)^[4] (buildAt 1 0 (selectBuildType (some TileType.wall) c2s7))

/-- C2/C3 trace, tick 15: a second wall built under the agent at (0,1). -/
def c2s15 : GameState := (tick czero 0)^[4] (buildAt 0 1 c2s11)

/-- C2/C3 trace, tick 18: a bed built at the corner (0,0); the agent stands
on it, enclosed by the walls at (1,0) and (0,1). -/
def c2s18 : GameState :=
  (tick czero 0)^[3] (buildAt 0 0 (selectBuildType (some TileType.bed) c2s15))

/-- C2/C3 trace, tick 19: a chop task for the tree at (3,1) is queued and
claimed by the (trapped) agent. -/
def c2s19 : GameState := tick czero 0 (queueChopTask 3 1 c2s18)

/-- C2/C3 trace, tick 20: while the agent carried the chop task, a second
chop task for the same tile was enqueued; the trapped agent finds no path,
abandons, and its task is pushed back, leaving two queued tasks at (3,1). -/
def c2s20 : GameState := tick czero 0 (queueChopTask 3 1 c2s19)

/-- Witness state for C8: a 1-by-1 map holding a tree. -/
def w8s : GameState :=
  { defaultStore with map := [[{ type := TileType.tree, x := 0, y := 0 }]] }

/-- Witness map for C5: a 1-by-1 map holding a tree (coverage 1 ≥ 0.70). -/
def w5map : GameMap := [[{ type := TileType.tree, x := 0, y := 0 }]]

/-- Witness context for C10. -/
def w10ctx : TickCtx :=
  { map := [[{ type := TileType.wall, x := 0, y := 0 }]], wood := 5,
    taskQueue := [], announcements := [], annIdCounter := 0, now := 0 }

/-- Witness task for C10: a pre-paid door build at (0,0). -/
def w10task : Task :=
  { id := "task-1", type := .build, x := 0, y := 0, buildType := some TileType.door }

/-- Witness agent for C10: standing on its build target, which has become a
wall. -/
def w10agent : Agent :=
  { id := "agent-1", x := 0, y := 0, state := .moving, targetX := some 0,
    targetY := some 0, currentTask := some w10task, isWarm := false }

/-- In-bounds predicate for grid cells. -/
def inb (W H : Int) (p : Pos) : Prop :=
  0 ≤ p.1 ∧ p.1 < W ∧ 0 ≤ p.2 ∧ p.2 < H

/-- A cell the pathfinder may return as a step: in bounds, and non-blocking
unless it is the target (the target cell is always enterable). -/
def StepOk (map : GameMap) (W H : Int) (target p : Pos) : Prop :=
  inb W H p ∧ (p = target ∨ isBlocking map p.1 p.2 W H = false)

/-- Soundness invariant of the BFS bookkeeping: every `cameFrom` key is a
cell the search legitimately entered, every `cameFrom` value chains back
toward the start, and every visited cell other than the start is a key. -/
def CfInv (map : GameMap) (W H : Int) (start target : Pos)
    (V : List Pos) (cf : List (Pos × Pos)) : Prop :=
  (∀ p q, alookup cf p = some q → StepOk map W H target p) ∧
  (∀ p q, alookup cf p = some q → q = start ∨ (alookup cf q).isSome) ∧
  (∀ p ∈ V, p = start ∨ (alookup cf p).isSome)

/-- An agent position inside the grid. -/
def AgentIn (W H : Int) (a : Agent) : Prop :=
  0 ≤ a.x ∧ a.x < W ∧ 0 ≤ a.y ∧ a.y < H

/-- The amended C3 invariant: positive grid dimensions and every agent
within them. -/
def AgentsInBounds (s : GameState) : Prop :=
  1 ≤ s.gridWidth ∧ 1 ≤ s.gridHeight ∧
  ∀ a ∈ s.agents, AgentIn s.gridWidth s.gridHeight a

/-- 4-connected adjacency, phrased through the pathfinder's direction
list. -/
def Adj (p q : Pos) : Prop :=
  (q.1 - p.1, q.2 - p.2) ∈ directions

/-- A 4-connected walk from `s` to its second position argument in which
every entered cell is one the pathfinder may enter (`StepOk`): in bounds and
non-wall unless it is the target. The source cell itself is not required to
be enterable, exactly as the search never re-enters its start. -/
inductive Walk (map : GameMap) (W H : Int) (target : Pos) :
    Pos → Pos → Nat → Prop where
  | nil (s : Pos) : Walk map W H target s s 0
  | cons {s p q : Pos} {n : Nat} : Walk map W H target s p n → Adj p q →
      StepOk map W H target q → Walk map W H target s q (n + 1)

/-- `n` is the length of a shortest walk from `s` to `p`. -/
def MinD (map : GameMap) (W H : Int) (target s p : Pos) (n : Nat) : Prop :=
  Walk map W H target s p n ∧ ∀ m, Walk map W H target s p m → n ≤ m

/-- Per-entry soundness of the `cameFrom` map: each entry records a real
BFS tree edge (parent adjacent to child, child enterable), parents chain
back to the start, and the child's shortest distance is exactly one more
than the parent's. -/
def CfOk (map : GameMap) (W H : Int) (start target : Pos)
    (cf : List (Pos × Pos)) : Prop :=
  ∀ p q, alookup cf p = some q →
    Adj q p ∧ StepOk map W H target p ∧
    (q = start ∨ (alookup cf q).isSome) ∧
    ∃ k, MinD map W H target start q k ∧ MinD map W H target start p (k + 1)

/-- Core BFS state invariant on the visited set and the `cameFrom` map. -/
def CoreInv (map : GameMap) (W H : Int) (start target : Pos)
    (V : List Pos) (cf : List (Pos × Pos)) : Prop :=
  V.Nodup ∧ start ∈ V ∧ target ∉ V ∧
  (∀ p ∈ V, p = start ∨ (alookup cf p).isSome) ∧
  (∀ p q, alookup cf p = some q → p ∈ V) ∧
  CfOk map W H start target cf ∧
  (∀ p q, alookup cf p = some q → ∀ k, MinD map W H target start p k →
    k ≤ cf.length)

/-- BFS queue invariant: every queued cell carries its exact shortest
distance, the distances are sorted, and they spread over at most two
consecutive values. -/
def QS (map : GameMap) (W H : Int) (start target : Pos) (Q : List Pos) :
    Prop :=
  ∃ dQ, List.Forall₂ (fun p d => MinD map W H target start p d) Q dQ ∧
    dQ.Pairwise (fun a b => a ≤ b) ∧
    ∀ b ∈ dQ, ∀ a ∈ dQ.head?, b ≤ a + 1

/-- A dequeued (fully processed) cell's enterable neighbors are all
visited. -/
def Closed (map : GameMap) (W H : Int) (target : Pos) (V Q : List Pos) :
    Prop :=
  ∀ p ∈ V, p ∉ Q → ∀ q, Adj p q → StepOk map W H target q → q ∈ V

/-- The full loop invariant of the BFS `while` loop. -/
def LoopInv (map : GameMap) (W H : Int) (start target : Pos)
    (V : List Pos) (cf : List (Pos × Pos)) (Q : List Pos) : Prop :=
  CoreInv map W H start target V cf ∧ (∀ p ∈ Q, p ∈ V) ∧
  QS map W H start target Q ∧ Closed map W H target V Q

/-- Number of in-bounds cells in a list (the pigeonhole measure for the
fuel bound). -/
def inbCount (W H : Int) (l : List Pos) : Nat :=
  (l.filter fun p =>
    decide (0 ≤ p.1 ∧ p.1 < W ∧ 0 ≤ p.2 ∧ p.2 < H)).length

/-- All in-bounds cells, row-major. -/
def allCells (W H : Int) : List Pos :=
  (List.range H.toNat).flatMap fun (y : Nat) =>
    (List.range W.toNat).map fun (x : Nat) => ((x : Int), (y : Int))

/-- What the pathfinder's early return guarantees: the returned step is
adjacent to the start, enterable, at distance one, and the remaining
distance from it to the target is exactly one less than the full shortest
distance — i.e. the step lies on a shortest walk. -/
def GoodStep (map : GameMap) (W H : Int) (start target st : Pos) : Prop :=
  ∃ m, MinD map W H target start target m ∧ Adj start st ∧
    StepOk map W H target st ∧ MinD map W H target start st 1 ∧
    MinD map W H target st target (m - 1)

set_option maxRecDepth 100000

theorem reach_tick_iter (g : Nat → ℚ) (now : Int) {s : GameState}
    (h : Reach s) : ∀ n : Nat, Reach ((tick g now)^[n] s)
  | 0 => h
  | n + 1 => by
    rw [Function.iterate_succ_apply']
    exact Reach.tickStep g now (reach_tick_iter g now h n)

/-- C1: REFUTED by the code (code bug). A build task found invalid during an
idle agent's assignment scan is refunded immediately, but it is pruned only
in the branch where no valid task was found; when the same scan assigns some
other valid task, the refunded build task stays in the queue and a later
scan refunds it again. In the reachable trace below, the single wall build
task (cost 1) queued on (0,0) is invalidated by tree growth at tick 100,
refunded there (wood 9 to 10) yet kept in the queue, and refunded a second
time at tick 104 (wood 20 to 21) before finally being pruned: wood increases
by twice cost(buildType) for one removed task, contradicting the
exactly-once refund the claim states. -/
theorem claim_C1_double_refund :
    Reach c1s104 ∧
    c1s99c.wood = 9 ∧
    (c1s99c.taskQueue.map fun t => (t.type, t.x, t.y)) =
      [(TaskType.build, 0, 0), (TaskType.chop, 3, 0)] ∧
    tileTypeAt c1s100.map 0 0 = some TileType.tree ∧
    c1s100.wood = 10 ∧
    (c1s100.taskQueue.map fun t => (t.type, t.x, t.y)) = [(TaskType.build, 0, 0)] ∧
    c1s104.wood = 21 ∧ c1s104.taskQueue = [] := by
  refine ⟨?_, by decide, by decide, by decide, by decide, by decide, by decide,
    by decide⟩
  have h0 : Reach (initializeGame c1g 4 1 defaultStore) :=
    Reach.boot c1g 4 1 (by decide) (by decide)
  have h3 : Reach c1s99 :=
    reach_tick_iter czero 0 (Reach.startStep (Reach.queueChopStep 1 0 h0)) 99
  have h6 : Reach c1s99c :=
    Reach.queueChopStep 3 0
      (Reach.buildAtStep 0 0 (Reach.selectBuildStep (some TileType.wall) h3))
  exact reach_tick_iter czero 0 (Reach.tickStep czero 0 h6) 4

/-- C2 counterexample: the queue-position uniqueness invariant fails on a
reachable state. While an agent carries a chop task for (3,1), the command
queueChopTask 3 1 succeeds again (the command checks only the queue, not
carried tasks); when the trapped agent then abandons, its task is pushed
back and the queue holds two tasks at (3,1). -/
theorem claim_C2_duplicate_positions :
    Reach c2s20 ∧
    (c2s20.taskQueue.map fun t => (t.x, t.y)) = [(3, 1), (3, 1)] ∧
    ¬ (queuePositions c2s20).Nodup := by
  refine ⟨?_, by decide, by decide⟩
  have h0 : Reach (initializeGame c2g 4 2 defaultStore) :=
    Reach.boot c2g 4 2 (by decide) (by decide)
  have h7 : Reach c2s7 :=
    reach_tick_iter czero 0
      (Reach.startStep (Reach.queueChopStep 3 0 (Reach.queueChopStep 2 0 h0))) 7
  have h11 : Reach c2s11 :=
    reach_tick_iter czero 0
      (Reach.buildAtStep 1 0 (Reach.selectBuildStep (some TileType.wall) h7)) 4
  have h15 : Reach c2s15 :=
    reach_tick_iter czero 0 (Reach.buildAtStep 0 1 h11) 4
  have h18 : Reach c2s18 :=
    reach_tick_iter czero 0
      (Reach.buildAtStep 0 0 (Reach.selectBuildStep (some TileType.bed) h15)) 3
  have h19 : Reach c2s19 :=
    Reach.tickStep czero 0 (Reach.queueChopStep 3 1 h18)
  exact Reach.tickStep czero 0 (Reach.queueChopStep 3 1 h19)

/-- C3 counterexample: an agent that completes a wall build stands on the
wall it just built, so "the tile at the agent's position is never a wall"
fails on a reachable state. -/
theorem claim_C3_agent_on_wall :
    Reach c2s11 ∧
    ∃ a ∈ c2s11.agents, tileTypeAt c2s11.map a.x a.y = some TileType.wall := by
  refine ⟨?_, by decide⟩
  have h0 : Reach (initializeGame c2g 4 2 defaultStore) :=
    Reach.boot c2g 4 2 (by decide) (by decide)
  have h7 : Reach c2s7 :=
    reach_tick_iter czero 0
      (Reach.startStep (Reach.queueChopStep 3 0 (Reach.queueChopStep 2 0 h0))) 7
  exact reach_tick_iter czero 0
    (Reach.buildAtStep 1 0 (Reach.selectBuildStep (some TileType.wall) h7)) 4

/-- C5: CONFIRMED. When tree coverage (treeCount / totalTiles) is at or
above the maximum threshold MAX_TREE_COVERAGE = 0.70, one invocation of
propagateTrees adds zero trees and returns the map unchanged, for every
random stream and stream position. -/
theorem claim_C5_no_growth_at_max (g : Nat → ℚ) (idx : Nat) (map : GameMap)
    (W H : Int)
    (hcov : MAX_TREE_COVERAGE ≤ (countTrees map : ℚ) / ((W * H : Int) : ℚ)) :
    propagateTrees g idx map W H = (map, 0, idx) := by
  unfold propagateTrees
  exact if_pos hcov

theorem claim_C5_witness :
    (MAX_TREE_COVERAGE ≤ (countTrees w5map : ℚ) / ((1 * 1 : Int) : ℚ)) ∧
    propagateTrees czero 0 w5map 1 1 = (w5map, 0, 0) :=
  ⟨by decide, claim_C5_no_growth_at_max czero 0 w5map 1 1 (by decide)⟩

/-- C7: CORRECTED. initializeGame resets the grid dimensions, map, agents
(exactly one exists afterward), task queue, wood, tick counter, running
flag, selection state, build-mode state, notification list and every id
counter — but NOT the warm-tile set: the source's `set` call omits
`warmTiles`, and zustand merges partial updates, so that one field retains
its pre-reset value (until the next tick recomputes it). -/
theorem claim_C7_reset_except_warm (g : Nat → ℚ) (w h : Int) (s : GameState) :
    (initializeGame g w h s).gridWidth = w ∧
    (initializeGame g w h s).gridHeight = h ∧
    (initializeGame g w h s).map = generateMap g w h ∧
    (initializeGame g w h s).agents.length = 1 ∧
    (initializeGame g w h s).taskQueue = [] ∧
    (initializeGame g w h s).wood = 0 ∧
    (initializeGame g w h s).tickCount = 0 ∧
    (initializeGame g w h s).isRunning = false ∧
    (initializeGame g w h s).selection = none ∧
    (initializeGame g w h s).multiSelection = [] ∧
    (initializeGame g w h s).contextMenuPos = none ∧
    (initializeGame g w h s).ignoreTileClicks = false ∧
    (initializeGame g w h s).buildMode = false ∧
    (initializeGame g w h s).selectedBuildType = none ∧
    (initializeGame g w h s).announcements = [] ∧
    (initializeGame g w h s).taskIdCounter = 0 ∧
    (initializeGame g w h s).annIdCounter = 0 ∧
    (initializeGame g w h s).workerIdCounter = 1 ∧
    (initializeGame g w h s).warmTiles = s.warmTiles :=
  ⟨rfl, rfl, rfl, rfl, rfl, rfl, rfl, rfl, rfl, rfl, rfl, rfl, rfl, rfl, rfl,
   rfl, rfl, rfl, rfl⟩

/-- C7 counterexample: a prior state whose warm-tile set survives
reinitialization, refuting "the warm-tile set is cleared ... no field
retains a value from before". -/
theorem claim_C7_warm_retained :
    (initializeGame czero 2 2
        { defaultStore with warmTiles := [(0, 0)] }).warmTiles ≠ [] := by
  decide

/-- C8: CONFIRMED. queueChopTask is idempotent on the whole store state (the
second of two consecutive calls with no intervening tick is a no-op), and
when the first call succeeds (no task at (x,y) yet, tile is a tree) the
queue afterwards holds exactly one task at (x,y), a chop task. -/
theorem claim_C8_idempotent (s : GameState) (x y : Int) :
    queueChopTask x y (queueChopTask x y s) = queueChopTask x y s ∧
    (((s.taskQueue.any fun task => task.x = x ∧ task.y = y) = false) →
      tileTypeAt s.map x y = some TileType.tree →
      (((queueChopTask x y s).taskQueue.filter fun task =>
          task.x = x ∧ task.y = y).map Task.type) = [TaskType.chop]) := by
  have keyQ : ∀ s' : GameState,
      (s'.taskQueue.any fun task => task.x = x ∧ task.y = y) = true →
      queueChopTask x y s' = s' := by
    intro s' h
    unfold queueChopTask
    rw [if_pos h]
  have keyS : ∀ s' : GameState,
      ¬ ((s'.taskQueue.any fun task => task.x = x ∧ task.y = y) = true) →
      tileTypeAt s'.map x y = some TileType.tree →
      queueChopTask x y s' =
        { s' with taskIdCounter := s'.taskIdCounter + 1,
                  taskQueue := s'.taskQueue ++
                    [{ id := "task-" ++ toString (s'.taskIdCounter + 1),
                       type := .chop, x := x, y := y }] } := by
    intro s' h1 h2
    unfold queueChopTask
    rw [if_neg h1, if_neg (not_not_intro h2)]
  constructor
  · by_cases h1 : (s.taskQueue.any fun task => task.x = x ∧ task.y = y) = true
    · rw [keyQ s h1, keyQ s h1]
    · by_cases h2 : tileTypeAt s.map x y = some TileType.tree
      · rw [keyS s h1 h2]
        apply keyQ
        rw [List.any_append]
        simp
      · have hstep : queueChopTask x y s = s := by
          unfold queueChopTask
          rw [if_neg h1, if_pos h2]
        rw [hstep, hstep]
  · intro h1 h2
    have h1' : ¬ ((s.taskQueue.any fun task => task.x = x ∧ task.y = y) = true) := by
      rw [h1]
      simp
    have hfil : (s.taskQueue.filter fun task => task.x = x ∧ task.y = y) = [] := by
      rw [List.filter_eq_nil_iff]
      intro a ha
      have hh := (List.any_eq_false).1 h1 a ha
      simpa using hh
    rw [keyS s h1' h2, List.filter_append, hfil]
    simp

theorem claim_C8_witness :
    (((queueChopTask 0 0 w8s).taskQueue.filter fun task =>
        task.x = 0 ∧ task.y = 0).map Task.type) = [TaskType.chop] :=
  (claim_C8_idempotent w8s 0 0).2 (by decide) (by decide)

/-- C9: CONFIRMED. findPath is deterministic: two invocations with an
identical grid, identical dimensions, and identical start and target
positions return the same step (or null). -/
theorem claim_C9_deterministic (m₁ m₂ : GameMap)
    (sx₁ sy₁ tx₁ ty₁ W₁ H₁ sx₂ sy₂ tx₂ ty₂ W₂ H₂ : Int)
    (hmap : m₁ = m₂) (hstart : (sx₁, sy₁) = (sx₂, sy₂))
    (htarget : (tx₁, ty₁) = (tx₂, ty₂)) (hdims : (W₁, H₁) = (W₂, H₂)) :
    findPath sx₁ sy₁ tx₁ ty₁ m₁ W₁ H₁ = findPath sx₂ sy₂ tx₂ ty₂ m₂ W₂ H₂ := by
  cases hmap
  cases hstart
  cases htarget
  cases hdims
  rfl

theorem claim_C9_witness :
    findPath 0 0 0 0 w5map 1 1 = findPath 0 0 0 0 w5map 1 1 :=
  claim_C9_deterministic w5map w5map 0 0 0 0 1 1 0 0 0 0 1 1 rfl rfl rfl rfl

/-- C10: CONFIRMED (implicit behavior). When an agent holding a build task
is at its target and the tile is no longer grass, the build is not
performed, target and task are cleared, the queue is untouched and no
refund is credited: wood changes only by +10 when the tile has become a
tree (the agent chops it instead, turning it to grass); for any other
non-grass tile the map and wood are unchanged — the reserved build cost is
lost. -/
theorem claim_C10_no_refund_on_lost_tile (W H : Int) (ctx : TickCtx)
    (a : Agent) (tx ty : Int) (t : Task) (tt : TileType)
    (hx : a.targetX = some tx) (hy : a.targetY = some ty)
    (hax : a.x = tx) (hay : a.y = ty)
    (htask : a.currentTask = some t) (_htype : t.type = TaskType.build)
    (htile : tileTypeAt ctx.map tx ty = some tt) (hng : tt ≠ TileType.grass) :
    (updateAgent W H ctx a).1.targetX = none ∧
    (updateAgent W H ctx a).1.targetY = none ∧
    (updateAgent W H ctx a).1.currentTask = none ∧
    (updateAgent W H ctx a).2.wood =
      ctx.wood + (if tt = TileType.tree then 10 else 0) ∧
    (updateAgent W H ctx a).2.taskQueue = ctx.taskQueue ∧
    (tt ≠ TileType.tree → (updateAgent W H ctx a).2.map = ctx.map) := by
  have hat : a.x = tx ∧ a.y = ty := ⟨hax, hay⟩
  by_cases htree : tt = TileType.tree
  · subst htree
    simp [updateAgent, agentWorkBranch, hx, hy, hat, htile, clearTarget]
  · have hnt : ¬ tileTypeAt ctx.map tx ty = some TileType.tree := by
      rw [htile]; simp [htree]
    cases hbt : t.buildType with
    | none =>
      simp [updateAgent, agentWorkBranch, hx, hy, hat, hnt, htask, hbt, clearTarget, htree]
    | some bt =>
      have hngr : ¬ tileTypeAt ctx.map tx ty = some TileType.grass := by
        rw [htile]; simp [hng]
      simp [updateAgent, agentWorkBranch, hx, hy, hat, hnt, htask, hbt, hngr, clearTarget, htree]

theorem buildCostOf_nonneg (t : TileType) : 0 ≤ buildCostOf t := by
  cases t <;> decide

theorem buildCostOpt_nonneg (o : Option TileType) : 0 ≤ buildCostOpt o := by
  cases o with
  | none => decide
  | some t => exact buildCostOf_nonneg t

theorem announceCtx_wood (ctx : TickCtx) (m : String) :
    (announceCtx ctx m).wood = ctx.wood := rfl

theorem announceCtx_taskQueue (ctx : TickCtx) (m : String) :
    (announceCtx ctx m).taskQueue = ctx.taskQueue := rfl

theorem announceCtx_map (ctx : TickCtx) (m : String) :
    (announceCtx ctx m).map = ctx.map := rfl

theorem scanTasks_wood_le (map : GameMap) (ax ay : Int) :
    ∀ (l : List Task) (i : Nat) (w : Int) (inv : List Nat)
      (b : Option (Int × Nat × Task)), w ≤ (scanTasks map ax ay l i w inv b).1 := by
  intro l
  induction l with
  | nil => intro i w inv b; exact le_refl w
  | cons task rest ih =>
    intro i w inv b
    cases htt : task.type with
    | chop =>
      simp only [scanTasks, htt]
      split
      · exact ih _ _ _ _
      · exact ih _ _ _ _
    | build =>
      simp only [scanTasks, htt]
      split
      · exact ih _ _ _ _
      · exact le_trans
          (le_add_of_nonneg_right (buildCostOpt_nonneg task.buildType)) (ih _ _ _ _)

theorem abandonCtx_wood_le (agent : Agent) (ctx : TickCtx) :
    ctx.wood ≤ (abandonCtx agent ctx).wood := by
  unfold abandonCtx
  split
  · split
    · exact le_add_of_nonneg_right (buildCostOpt_nonneg _)
    · exact le_refl ctx.wood
  · exact le_refl ctx.wood

theorem agentWorkBranch_wood_le (tx ty : Int) (agent : Agent) (ctx : TickCtx) :
    ctx.wood ≤ (agentWorkBranch tx ty agent ctx).2.wood := by
  simp only [agentWorkBranch]
  split
  · exact le_add_of_nonneg_right (by norm_num)
  · split
    · split
      · split
        · rw [announceCtx_wood]
        · exact le_refl ctx.wood
      · exact le_refl ctx.wood
    · exact le_refl ctx.wood

theorem agentMoveBranch_wood_le (W H tx ty : Int) (agent : Agent)
    (ctx : TickCtx) : ctx.wood ≤ (agentMoveBranch W H tx ty agent ctx).2.wood := by
  simp only [agentMoveBranch]
  split
  · split
    · exact le_refl ctx.wood
    · exact abandonCtx_wood_le agent ctx
  · exact abandonCtx_wood_le agent ctx

theorem agentScanBranch_wood_le (agent : Agent) (ctx : TickCtx) :
    ctx.wood ≤ (agentScanBranch agent ctx).2.wood := by
  simp only [agentScanBranch]
  split
  · split
    · exact scanTasks_wood_le ctx.map agent.x agent.y ctx.taskQueue 0 ctx.wood [] none
    · exact scanTasks_wood_le ctx.map agent.x agent.y ctx.taskQueue 0 ctx.wood [] none
  · exact le_refl ctx.wood

theorem updateAgent_wood_le (W H : Int) (ctx : TickCtx) (agent : Agent) :
    ctx.wood ≤ (updateAgent W H ctx agent).2.wood := by
  cases hx : agent.targetX with
  | none =>
    simp only [updateAgent, hx]
    exact agentScanBranch_wood_le agent ctx
  | some tx =>
    cases hy : agent.targetY with
    | none =>
      simp only [updateAgent, hx, hy]
      exact agentScanBranch_wood_le agent ctx
    | some ty =>
      simp only [updateAgent, hx, hy]
      split
      · exact agentWorkBranch_wood_le tx ty agent ctx
      · exact agentMoveBranch_wood_le W H tx ty agent ctx

theorem agentsLoop_wood_le (W H : Int) :
    ∀ (agents : List Agent) (ctx : TickCtx),
      ctx.wood ≤ (agentsLoop W H agents ctx).2.wood := by
  intro agents
  induction agents with
  | nil => intro ctx; exact le_refl _
  | cons a rest ih =>
    intro ctx
    exact le_trans (updateAgent_wood_le W H ctx a) (ih _)

theorem tickPropagation_wood (g : Nat → ℚ) (W H n : Int) (ctx : TickCtx) :
    (tickPropagation g W H n ctx).1.wood = ctx.wood := by
  simp only [tickPropagation]
  split
  · split <;> rfl
  · rfl

theorem tickPropagation_taskQueue (g : Nat → ℚ) (W H n : Int) (ctx : TickCtx) :
    (tickPropagation g W H n ctx).1.taskQueue = ctx.taskQueue := by
  simp only [tickPropagation]
  split
  · split <;> rfl
  · rfl

theorem tickSpawn_ctx_wood (g : Nat → ℚ) (W H n wid : Int)
    (agents : List Agent) (ridx : Nat) (ctx : TickCtx) :
    (tickSpawn g W H n wid agents ridx ctx).2.1.wood = ctx.wood := by
  simp only [tickSpawn]
  repeat first
    | rfl
    | split

theorem tickSpawn_ctx_taskQueue (g : Nat → ℚ) (W H n wid : Int)
    (agents : List Agent) (ridx : Nat) (ctx : TickCtx) :
    (tickSpawn g W H n wid agents ridx ctx).2.1.taskQueue = ctx.taskQueue := by
  simp only [tickSpawn]
  repeat first
    | rfl
    | split

theorem tick_wood_le (g : Nat → ℚ) (now : Int) (s : GameState) :
    s.wood ≤ (tick g now s).wood := by
  unfold tick
  split
  · exact le_refl _
  · refine le_trans ?_ (agentsLoop_wood_le _ _ _ _)
    rw [tickSpawn_ctx_wood, tickPropagation_wood]

theorem queueChopTask_pres (x y : Int) (s : GameState) :
    (queueChopTask x y s).wood = s.wood ∧
    (queueChopTask x y s).agents = s.agents ∧
    (queueChopTask x y s).gridWidth = s.gridWidth ∧
    (queueChopTask x y s).gridHeight = s.gridHeight := by
  unfold queueChopTask
  split
  · exact ⟨rfl, rfl, rfl, rfl⟩
  · split
    · exact ⟨rfl, rfl, rfl, rfl⟩
    · exact ⟨rfl, rfl, rfl, rfl⟩

theorem selectTile_pres (x y sx sy : Int) (s : GameState) :
    (selectTile x y sx sy s).wood = s.wood ∧
    (selectTile x y sx sy s).agents = s.agents ∧
    (selectTile x y sx sy s).gridWidth = s.gridWidth ∧
    (selectTile x y sx sy s).gridHeight = s.gridHeight ∧
    (selectTile x y sx sy s).taskQueue = s.taskQueue := by
  unfold selectTile
  split
  · split
    · exact ⟨rfl, rfl, rfl, rfl, rfl⟩
    · exact ⟨rfl, rfl, rfl, rfl, rfl⟩
  · exact ⟨rfl, rfl, rfl, rfl, rfl⟩

theorem chopSelectedTree_pres (s : GameState) :
    (chopSelectedTree s).wood = s.wood ∧
    (chopSelectedTree s).agents = s.agents ∧
    (chopSelectedTree s).gridWidth = s.gridWidth ∧
    (chopSelectedTree s).gridHeight = s.gridHeight := by
  simp only [chopSelectedTree]
  split
  · rename_i sel heq
    split
    · have h := queueChopTask_pres sel.x sel.y s
      exact ⟨h.1, h.2.1, h.2.2.1, h.2.2.2⟩
    · exact ⟨rfl, rfl, rfl, rfl⟩
  · exact ⟨rfl, rfl, rfl, rfl⟩

theorem queueChopTask_foldl_pres (l : List Tile) :
    ∀ s : GameState,
      (l.foldl (fun st tile => queueChopTask tile.x tile.y st) s).wood = s.wood ∧
      (l.foldl (fun st tile => queueChopTask tile.x tile.y st) s).agents = s.agents ∧
      (l.foldl (fun st tile => queueChopTask tile.x tile.y st) s).gridWidth = s.gridWidth ∧
      (l.foldl (fun st tile => queueChopTask tile.x tile.y st) s).gridHeight = s.gridHeight := by
  induction l with
  | nil => intro s; exact ⟨rfl, rfl, rfl, rfl⟩
  | cons t rest ih =>
    intro s
    have h1 := queueChopTask_pres t.x t.y s
    have h2 := ih (queueChopTask t.x t.y s)
    simp only [List.foldl_cons]
    exact ⟨h2.1.trans h1.1, h2.2.1.trans h1.2.1, h2.2.2.1.trans h1.2.2.1,
      h2.2.2.2.trans h1.2.2.2⟩

theorem chopSelectedTrees_pres (s : GameState) :
    (chopSelectedTrees s).wood = s.wood ∧
    (chopSelectedTrees s).agents = s.agents ∧
    (chopSelectedTrees s).gridWidth = s.gridWidth ∧
    (chopSelectedTrees s).gridHeight = s.gridHeight := by
  unfold chopSelectedTrees
  exact queueChopTask_foldl_pres _ s

theorem clearOldAnnouncements_pres (now : Int) (s : GameState) :
    (clearOldAnnouncements now s).wood = s.wood ∧
    (clearOldAnnouncements now s).agents = s.agents ∧
    (clearOldAnnouncements now s).gridWidth = s.gridWidth ∧
    (clearOldAnnouncements now s).gridHeight = s.gridHeight ∧
    (clearOldAnnouncements now s).taskQueue = s.taskQueue := by
  simp only [clearOldAnnouncements]
  split
  · exact ⟨rfl, rfl, rfl, rfl, rfl⟩
  · exact ⟨rfl, rfl, rfl, rfl, rfl⟩

theorem buildAt_pres (x y : Int) (s : GameState) :
    (buildAt x y s).agents = s.agents ∧
    (buildAt x y s).gridWidth = s.gridWidth ∧
    (buildAt x y s).gridHeight = s.gridHeight := by
  unfold buildAt
  repeat first
    | exact ⟨rfl, rfl, rfl⟩
    | split

theorem buildAt_wood_nonneg (x y : Int) (s : GameState) (h : 0 ≤ s.wood) :
    0 ≤ (buildAt x y s).wood := by
  unfold buildAt
  split
  · exact h
  · split
    · exact h
    · split
      · exact h
      · split
        · exact h
        · next hwood =>
          show (0 : Int) ≤ s.wood - buildCostOf _
          omega

/-- C6: CONFIRMED. In every state reachable from initialization by any
sequence of commands and ticks, the wood counter is nonnegative: buildAt
debits the cost only when wood covers it, and every step of tick (chop
credit, pre-paid build completion, scan refund, abandonment refund) only
adds to wood. -/
theorem claim_C6_wood_nonneg : ∀ s : GameState, Reach s → 0 ≤ s.wood := by
  intro s h
  induction h with
  | boot g w h hw hh => exact le_refl 0
  | reinit g w h hw hh hr ih => exact le_refl 0
  | tickStep g now hr ih => exact le_trans ih (tick_wood_le g now _)
  | startStep hr ih => exact ih
  | stopStep hr ih => exact ih
  | toggleStep hr ih => exact ih
  | selectTileStep x y sx sy hr ih =>
    rw [(selectTile_pres x y sx sy _).1]; exact ih
  | setMultiStep tiles sx sy hr ih => exact ih
  | clearSelStep hr ih => exact ih
  | chopSelStep hr ih => rw [(chopSelectedTree_pres _).1]; exact ih
  | chopSelManyStep hr ih => rw [(chopSelectedTrees_pres _).1]; exact ih
  | queueChopStep x y hr ih => rw [(queueChopTask_pres x y _).1]; exact ih
  | ignoreClicksStep b hr ih => exact ih
  | toggleBuildStep hr ih => exact ih
  | selectBuildStep t hr ih => exact ih
  | buildAtStep x y hr ih => exact buildAt_wood_nonneg x y _ ih
  | addAnnStep m now hr ih => exact ih
  | clearAnnStep now hr ih => rw [(clearOldAnnouncements_pres now _).1]; exact ih

theorem claim_C6_wood_nonneg_witness :
    0 ≤ (initializeGame czero 2 2 defaultStore).wood :=
  claim_C6_wood_nonneg (initializeGame czero 2 2 defaultStore)
    (Reach.boot czero 2 2 (by decide) (by decide))

theorem claim_C10_witness :
    (updateAgent 1 1 w10ctx w10agent).2.wood =
      w10ctx.wood + (if TileType.wall = TileType.tree then 10 else 0) ∧
    (updateAgent 1 1 w10ctx w10agent).2.taskQueue = w10ctx.taskQueue :=
  let h := claim_C10_no_refund_on_lost_tile 1 1 w10ctx w10agent 0 0 w10task
    TileType.wall rfl rfl rfl rfl rfl rfl (by decide) (by decide)
  ⟨h.2.2.2.1, h.2.2.2.2.1⟩

theorem alookup_cons (k v : Pos) (cf : List (Pos × Pos)) (p : Pos) :
    alookup ((k, v) :: cf) p = if k = p then some v else alookup cf p := rfl

theorem alookup_cons_isSome {cf : List (Pos × Pos)} {p : Pos} (k v : Pos)
    (h : (alookup cf p).isSome) : (alookup ((k, v) :: cf) p).isSome := by
  rw [alookup_cons]
  split
  · rfl
  · exact h

theorem reconstruct_key (start : Pos) (cf : List (Pos × Pos))
    (hvals : ∀ p q, alookup cf p = some q → q = start ∨ (alookup cf q).isSome) :
    ∀ (fuel : Nat) (curr : Pos), (alookup cf curr).isSome →
      (alookup cf (reconstruct fuel cf start curr)).isSome := by
  intro fuel
  induction fuel with
  | zero => intro curr h; exact h
  | succ n ih =>
    intro curr h
    unfold reconstruct
    cases hcl : alookup cf curr with
    | none =>
      rw [hcl] at h
      simp at h
    | some prev =>
      simp only [hcl]
      by_cases hps : prev = start
      · rw [if_pos hps]
        exact h
      · rw [if_neg hps]
        exact ih prev ((hvals curr prev hcl).resolve_left hps)

theorem cfInv_extend (map : GameMap) (W H : Int) (start target : Pos)
    {V : List Pos} {cf : List (Pos × Pos)}
    (inv : CfInv map W H start target V cf) {n c : Pos}
    (hc : c ∈ V) (hinb : inb W H n)
    (hok : n = target ∨ isBlocking map n.1 n.2 W H = false) :
    CfInv map W H start target (n :: V) ((n, c) :: cf) := by
  obtain ⟨hkeys, hvals, hV⟩ := inv
  refine ⟨?_, ?_, ?_⟩
  · intro p q hpq
    rw [alookup_cons] at hpq
    split at hpq
    · next heq => exact heq ▸ ⟨hinb, hok⟩
    · exact hkeys p q hpq
  · intro p q hpq
    rw [alookup_cons] at hpq
    split at hpq
    · next heq =>
      cases hpq
      rcases hV c hc with h | h
      · exact Or.inl h
      · exact Or.inr (alookup_cons_isSome n c h)
    · rcases hvals p q hpq with h | h
      · exact Or.inl h
      · exact Or.inr (alookup_cons_isSome n c h)
  · intro p hp
    rcases List.mem_cons.1 hp with rfl | hp
    · refine Or.inr ?_
      rw [alookup_cons, if_pos rfl]
      rfl
    · rcases hV p hp with h | h
      · exact Or.inl h
      · exact Or.inr (alookup_cons_isSome n c h)

theorem expandDirs_sound (map : GameMap) (W H : Int) (start target c : Pos) :
    ∀ (ds : List (Int × Int)) (V : List Pos) (cf : List (Pos × Pos))
      (acc : List Pos),
      CfInv map W H start target V cf → c ∈ V → (∀ p ∈ acc, p ∈ V) →
      (∀ step, expandDirs map W H start target c ds V cf acc = .found step →
        StepOk map W H target step) ∧
      (∀ V' cf' enq,
        expandDirs map W H start target c ds V cf acc = .cont V' cf' enq →
        CfInv map W H start target V' cf' ∧ c ∈ V' ∧ (∀ p ∈ V, p ∈ V') ∧
        (∀ p ∈ enq, p ∈ V')) := by
  intro ds
  induction ds with
  | nil =>
    intro V cf acc inv hc hacc
    constructor
    · intro step h
      cases h
    · intro V' cf' enq h
      cases h
      exact ⟨inv, hc, fun p hp => hp, hacc⟩
  | cons d ds ih =>
    intro V cf acc inv hc hacc
    simp only [expandDirs]
    split
    · exact ih V cf acc inv hc hacc
    · split
      · exact ih V cf acc inv hc hacc
      · split
        · exact ih V cf acc inv hc hacc
        · next hmem hoob hblock =>
          have hinb : inb W H (c.1 + d.1, c.2 + d.2) := by
            push_neg at hoob
            exact ⟨hoob.1, hoob.2.1, hoob.2.2.1, hoob.2.2.2⟩
          have hok : (c.1 + d.1, c.2 + d.2) = target ∨
              isBlocking map (c.1 + d.1, c.2 + d.2).1 (c.1 + d.1, c.2 + d.2).2 W H = false := by
            by_cases ht : (c.1 + d.1, c.2 + d.2) = target
            · exact Or.inl ht
            · right
              by_cases hb : isBlocking map (c.1 + d.1) (c.2 + d.2) W H = false
              · exact hb
              · exact absurd ⟨ht, Bool.not_eq_false _ ▸ (by simpa using hb)⟩ hblock
          have inv' := cfInv_extend map W H start target inv hc hinb hok
          have hsome : (alookup (((c.1 + d.1, c.2 + d.2), c) :: cf)
              (c.1 + d.1, c.2 + d.2)).isSome := by
            rw [alookup_cons, if_pos rfl]; rfl
          split
          · next htgt =>
            constructor
            · intro step h
              cases h
              obtain ⟨q, hq⟩ := Option.isSome_iff_exists.mp
                (reconstruct_key start (((c.1 + d.1, c.2 + d.2), c) :: cf)
                  inv'.2.1 ((((c.1 + d.1, c.2 + d.2), c) :: cf).length + 1)
                  (c.1 + d.1, c.2 + d.2) hsome)
              exact inv'.1 _ q hq
            · intro V' cf' enq h
              cases h
          · have hres := ih ((c.1 + d.1, c.2 + d.2) :: V)
              (((c.1 + d.1, c.2 + d.2), c) :: cf) (acc ++ [(c.1 + d.1, c.2 + d.2)])
              inv' (List.mem_cons_of_mem _ hc) ?_
            · constructor
              · intro step h
                exact hres.1 step h
              · intro V' cf' enq h
                obtain ⟨hinv, hcV, hVV, henq⟩ := hres.2 V' cf' enq h
                exact ⟨hinv, hcV, fun p hp => hVV p (List.mem_cons_of_mem _ hp), henq⟩
            · intro p hp
              rcases List.mem_append.1 hp with hp | hp
              · exact List.mem_cons_of_mem _ (hacc p hp)
              · rcases List.mem_singleton.1 hp with rfl
                exact List.mem_cons_self _ _

theorem bfsLoop_sound (map : GameMap) (W H : Int) (start target : Pos) :
    ∀ (fuel : Nat) (V : List Pos) (cf : List (Pos × Pos)) (Q : List Pos)
      (step : Pos),
      CfInv map W H start target V cf → (∀ p ∈ Q, p ∈ V) →
      bfsLoop map W H start target fuel V cf Q = some step →
      StepOk map W H target step := by
  intro fuel
  induction fuel with
  | zero => intro V cf Q step _ _ h; cases h
  | succ n ih =>
    intro V cf Q step inv hQ h
    cases Q with
    | nil => cases h
    | cons c rest =>
      rw [bfsLoop] at h
      cases hsp : expandDirs map W H start target c directions V cf [] with
      | found stp =>
        rw [hsp] at h
        cases h
        exact (expandDirs_sound map W H start target c directions V cf [] inv
          (hQ c (List.mem_cons_self _ _)) (by intro p hp; cases hp)).1 _ hsp
      | cont V' cf' enq =>
        rw [hsp] at h
        have hexp := (expandDirs_sound map W H start target c directions V cf []
          inv (hQ c (List.mem_cons_self _ _)) (by intro p hp; cases hp)).2
          V' cf' enq hsp
        refine ih V' cf' (rest ++ enq) step hexp.1 ?_ h
        intro p hp
        rcases List.mem_append.1 hp with hp | hp
        · exact hexp.2.2.1 p (hQ p (List.mem_cons_of_mem _ hp))
        · exact hexp.2.2.2 p hp

theorem findPath_sound (map : GameMap) (W H sx sy tx ty : Int) (step : Pos)
    (h : findPath sx sy tx ty map W H = some step) :
    step = (sx, sy) ∨ StepOk map W H (tx, ty) step := by
  unfold findPath at h
  by_cases heq : sx = tx ∧ sy = ty
  · rw [if_pos heq] at h
    cases h
    exact Or.inl rfl
  · rw [if_neg heq] at h
    refine Or.inr (bfsLoop_sound map W H (sx, sy) (tx, ty) _ _ _ _ _ ?_ ?_ h)
    · refine ⟨?_, ?_, ?_⟩
      · intro p q hpq; cases hpq
      · intro p q hpq; cases hpq
      · intro p hp
        rcases List.mem_singleton.1 hp with rfl
        exact Or.inl rfl
    · intro p hp
      exact hp

theorem getD_mem_or_eq {α : Type} (l : List α) (n : Nat) (d : α) :
    l.getD n d ∈ l ∨ l.getD n d = d := by
  have hdef : l.getD n d = (l.get? n).getD d := rfl
  rw [hdef]
  cases h : l.get? n with
  | none => exact Or.inr rfl
  | some a => exact Or.inl (List.get?_mem h)

theorem getD_bounds {W H : Int} (l : List Pos) (hl : ∀ p ∈ l, inb W H p)
    (n : Nat) (d : Pos) (hd : inb W H d) : inb W H (l.getD n d) := by
  rcases getD_mem_or_eq l n d with h | h
  · exact hl _ h
  · rw [h]; exact hd

theorem grassTilesOf_bounds (map : GameMap) (W H : Int) :
    ∀ p ∈ grassTilesOf map W H, inb W H p := by
  intro p hp
  unfold grassTilesOf at hp
  rw [List.mem_flatMap] at hp
  obtain ⟨y, hy, hp⟩ := hp
  rw [List.mem_filterMap] at hp
  obtain ⟨x, hx, hsome⟩ := hp
  rw [List.mem_range] at hy hx
  split at hsome
  · cases hsome
    refine ⟨?_, ?_, ?_, ?_⟩
    · show (0 : Int) ≤ (x : Int)
      omega
    · show (x : Int) < W
      omega
    · show (0 : Int) ≤ (y : Int)
      omega
    · show (y : Int) < H
      omega
  · cases hsome

theorem createInitialAgent_bounds (r : ℚ) (map : GameMap) (W H : Int)
    (hW : 1 ≤ W) (hH : 1 ≤ H) :
    AgentIn W H (createInitialAgent r map W H) := by
  have h := getD_bounds (grassTilesOf map W H) (grassTilesOf_bounds map W H)
    (Int.floor (r * ((grassTilesOf map W H).length : ℚ))).toNat (0, 0)
    ⟨le_refl 0, by omega, le_refl 0, by omega⟩
  exact ⟨h.1, h.2.1, h.2.2.1, h.2.2.2⟩

theorem findSpawnNearFireplace_bounds (r : ℚ) (map : GameMap) (fp : Pos)
    (agents : List Agent) (W H : Int) (pos : Pos) (hW : 1 ≤ W) (hH : 1 ≤ H)
    (h : findSpawnNearFireplace r map fp agents W H = some pos) :
    inb W H pos := by
  simp only [findSpawnNearFireplace] at h
  split at h
  · cases h
  · rw [Option.some.injEq] at h
    subst h
    refine getD_bounds _ ?_ _ _ ⟨le_refl 0, by omega, le_refl 0, by omega⟩
    intro p hp
    simp only [List.mem_flatMap, List.mem_filterMap] at hp
    obtain ⟨dy, hdy, dx, hdx, hsome⟩ := hp
    split at hsome
    · cases hsome
    · split at hsome
      · cases hsome
      · split at hsome
        · cases hsome
        · split at hsome
          · cases hsome
          · next h1 h2 h3 h4 =>
            cases hsome
            push_neg at h2
            exact ⟨h2.1, h2.2.1, h2.2.2.1, h2.2.2.2⟩

theorem agentScanBranch_pos (agent : Agent) (ctx : TickCtx) :
    (agentScanBranch agent ctx).1.x = agent.x ∧
    (agentScanBranch agent ctx).1.y = agent.y := by
  simp only [agentScanBranch]
  split
  · split
    · exact ⟨rfl, rfl⟩
    · exact ⟨rfl, rfl⟩
  · exact ⟨rfl, rfl⟩

theorem agentWorkBranch_pos (tx ty : Int) (agent : Agent) (ctx : TickCtx) :
    (agentWorkBranch tx ty agent ctx).1.x = agent.x ∧
    (agentWorkBranch tx ty agent ctx).1.y = agent.y := by
  simp only [agentWorkBranch]
  split
  · exact ⟨rfl, rfl⟩
  · split
    · split
      · split
        · exact ⟨rfl, rfl⟩
        · exact ⟨rfl, rfl⟩
      · exact ⟨rfl, rfl⟩
    · exact ⟨rfl, rfl⟩

theorem agentMoveBranch_agentIn (W H tx ty : Int) (agent : Agent)
    (ctx : TickCtx) (ha : AgentIn W H agent) :
    AgentIn W H (agentMoveBranch W H tx ty agent ctx).1 := by
  have habd : AgentIn W H (clearTarget { agent with state := .idle }) :=
    ⟨ha.1, ha.2.1, ha.2.2.1, ha.2.2.2⟩
  simp only [agentMoveBranch]
  split
  · rename_i step hfp
    split
    · rcases findPath_sound ctx.map W H agent.x agent.y tx ty step hfp with
        heq | hok
      · rename_i hne
        rw [heq] at hne
        simp at hne
      · exact ⟨hok.1.1, hok.1.2.1, hok.1.2.2.1, hok.1.2.2.2⟩
    · exact habd
  · exact habd

theorem updateAgent_agentIn (W H : Int) (ctx : TickCtx) (a : Agent)
    (ha : AgentIn W H a) : AgentIn W H (updateAgent W H ctx a).1 := by
  cases hx : a.targetX with
  | none =>
    simp only [updateAgent, hx]
    have h := agentScanBranch_pos a ctx
    exact ⟨h.1 ▸ ha.1, h.1 ▸ ha.2.1, h.2 ▸ ha.2.2.1, h.2 ▸ ha.2.2.2⟩
  | some tx =>
    cases hy : a.targetY with
    | none =>
      simp only [updateAgent, hx, hy]
      have h := agentScanBranch_pos a ctx
      exact ⟨h.1 ▸ ha.1, h.1 ▸ ha.2.1, h.2 ▸ ha.2.2.1, h.2 ▸ ha.2.2.2⟩
    | some ty =>
      simp only [updateAgent, hx, hy]
      split
      · have h := agentWorkBranch_pos tx ty a ctx
        exact ⟨h.1 ▸ ha.1, h.1 ▸ ha.2.1, h.2 ▸ ha.2.2.1, h.2 ▸ ha.2.2.2⟩
      · exact agentMoveBranch_agentIn W H tx ty a ctx ha

theorem agentsLoop_bounds (W H : Int) :
    ∀ (agents : List Agent) (ctx : TickCtx),
      (∀ a ∈ agents, AgentIn W H a) →
      ∀ a ∈ (agentsLoop W H agents ctx).1, AgentIn W H a := by
  intro agents
  induction agents with
  | nil => intro ctx h a ha; cases ha
  | cons b rest ih =>
    intro ctx h a ha
    rcases List.mem_cons.1 ha with rfl | ha
    · exact updateAgent_agentIn W H ctx b (h b (List.mem_cons_self _ _))
    · exact ih _ (fun c hc => h c (List.mem_cons_of_mem _ hc)) a ha

theorem tickSpawn_agents_bounds (g : Nat → ℚ) (W H n wid : Int)
    (agents : List Agent) (ridx : Nat) (ctx : TickCtx)
    (hW : 1 ≤ W) (hH : 1 ≤ H) (h : ∀ a ∈ agents, AgentIn W H a) :
    ∀ a ∈ (tickSpawn g W H n wid agents ridx ctx).1, AgentIn W H a := by
  simp only [tickSpawn]
  split
  · split
    · split
      · split
        · next pos hsp =>
          intro a ha
          rcases List.mem_append.1 ha with ha | ha
          · exact h a ha
          · rcases List.mem_singleton.1 ha with rfl
            have hb := findSpawnNearFireplace_bounds _ _ _ _ _ _ pos hW hH hsp
            exact ⟨hb.1, hb.2.1, hb.2.2.1, hb.2.2.2⟩
        · exact h
      · exact h
    · exact h
  · exact h

theorem tick_agentsInBounds (g : Nat → ℚ) (now : Int) (s : GameState)
    (h : AgentsInBounds s) : AgentsInBounds (tick g now s) := by
  obtain ⟨hW, hH, hA⟩ := h
  unfold tick
  split
  · exact ⟨hW, hH, hA⟩
  · refine ⟨hW, hH, ?_⟩
    intro a ha
    simp only [List.mem_map] at ha
    obtain ⟨b, hb, rfl⟩ := ha
    have hbI := agentsLoop_bounds s.gridWidth s.gridHeight _ _
      (tickSpawn_agents_bounds g s.gridWidth s.gridHeight _ _ s.agents _ _
        hW hH hA) b hb
    exact ⟨hbI.1, hbI.2.1, hbI.2.2.1, hbI.2.2.2⟩

theorem agentsInBounds_of_eq {s' s : GameState}
    (hW : s'.gridWidth = s.gridWidth) (hH : s'.gridHeight = s.gridHeight)
    (hA : s'.agents = s.agents) (h : AgentsInBounds s) : AgentsInBounds s' := by
  rw [AgentsInBounds, hW, hH, hA]
  exact h

theorem initializeGame_agentsInBounds (g : Nat → ℚ) (w h : Int)
    (s : GameState) (hw : 1 ≤ w) (hh : 1 ≤ h) :
    AgentsInBounds (initializeGame g w h s) := by
  refine ⟨hw, hh, ?_⟩
  intro a ha
  rcases List.mem_singleton.1 ha with rfl
  exact createInitialAgent_bounds _ _ w h hw hh

/-- C3 (amended): CONFIRMED for the boundedness half. In every reachable
state the grid dimensions are positive and every agent's position lies
within them; this is preserved by every tick (movement steps only ever land
on cells the BFS bounds-checked, or on the bounds-checked target cell) and
by every command. The never-on-a-wall half of the original claim is refuted
by claim_C3_agent_on_wall. -/
theorem claim_C3_agents_in_bounds : ∀ s : GameState, Reach s → AgentsInBounds s := by
  intro s h
  induction h with
  | boot g w h hw hh => exact initializeGame_agentsInBounds g w h _ hw hh
  | reinit g w h hw hh hr ih => exact initializeGame_agentsInBounds g w h _ hw hh
  | tickStep g now hr ih => exact tick_agentsInBounds g now _ ih
  | startStep hr ih => exact agentsInBounds_of_eq rfl rfl rfl ih
  | stopStep hr ih => exact agentsInBounds_of_eq rfl rfl rfl ih
  | toggleStep hr ih => exact agentsInBounds_of_eq rfl rfl rfl ih
  | selectTileStep x y sx sy hr ih =>
    rename_i s
    have h := selectTile_pres x y sx sy s
    exact agentsInBounds_of_eq h.2.2.1 h.2.2.2.1 h.2.1 ih
  | setMultiStep tiles sx sy hr ih => exact agentsInBounds_of_eq rfl rfl rfl ih
  | clearSelStep hr ih => exact agentsInBounds_of_eq rfl rfl rfl ih
  | chopSelStep hr ih =>
    rename_i s
    have h := chopSelectedTree_pres s
    exact agentsInBounds_of_eq h.2.2.1 h.2.2.2 h.2.1 ih
  | chopSelManyStep hr ih =>
    rename_i s
    have h := chopSelectedTrees_pres s
    exact agentsInBounds_of_eq h.2.2.1 h.2.2.2 h.2.1 ih
  | queueChopStep x y hr ih =>
    rename_i s
    have h := queueChopTask_pres x y s
    exact agentsInBounds_of_eq h.2.2.1 h.2.2.2 h.2.1 ih
  | ignoreClicksStep b hr ih => exact agentsInBounds_of_eq rfl rfl rfl ih
  | toggleBuildStep hr ih => exact agentsInBounds_of_eq rfl rfl rfl ih
  | selectBuildStep t hr ih => exact agentsInBounds_of_eq rfl rfl rfl ih
  | buildAtStep x y hr ih =>
    rename_i s
    have h := buildAt_pres x y s
    exact agentsInBounds_of_eq h.2.1 h.2.2 h.1 ih
  | addAnnStep m now hr ih => exact agentsInBounds_of_eq rfl rfl rfl ih
  | clearAnnStep now hr ih =>
    rename_i s
    have h := clearOldAnnouncements_pres now s
    exact agentsInBounds_of_eq h.2.2.1 h.2.2.2.1 h.2.1 ih

theorem claim_C3_agents_in_bounds_witness :
    AgentsInBounds (initializeGame czero 2 2 defaultStore) :=
  claim_C3_agents_in_bounds (initializeGame czero 2 2 defaultStore)
    (Reach.boot czero 2 2 (by decide) (by decide))

theorem perm_cons_eraseIdx {α : Type} :
    ∀ (l : List α) (i : Nat) (x : α), l.get? i = some x →
      l.Perm (x :: l.eraseIdx i)
  | [], _, _, h => by simp at h
  | a :: l, 0, x, h => by
    cases h
    exact List.Perm.refl _
  | a :: l, i + 1, x, h => by
    have ih := perm_cons_eraseIdx l i x h
    exact (ih.cons a).trans (List.Perm.swap x a _)

theorem map_eraseIdx {α β : Type} (f : α → β) :
    ∀ (l : List α) (i : Nat), (l.eraseIdx i).map f = (l.map f).eraseIdx i
  | [], _ => by simp
  | _ :: _, 0 => rfl
  | a :: l, i + 1 => by
    show f a :: (l.eraseIdx i).map f = f a :: (l.map f).eraseIdx i
    rw [map_eraseIdx f l i]

theorem subperm_nodup {α : Type} {l₁ l₂ : List α} (h : l₁.Subperm l₂)
    (h2 : l₂.Nodup) : l₁.Nodup := by
  obtain ⟨l, hperm, hsub⟩ := h
  exact hperm.nodup_iff.mp (hsub.nodup h2)

theorem enum_filter_map_sublist {α : Type} (q : List α) (p : Nat × α → Bool) :
    ((q.enum.filter p).map Prod.snd).Sublist q := by
  have h1 : (q.enum.filter p).Sublist q.enum := List.filter_sublist q.enum
  have h2 := h1.map Prod.snd
  rw [List.enum_map_snd] at h2
  exact h2

theorem some_triple_inj {a b : Int} {c d : Nat} {e f : Task}
    (h : (some (a, c, e) : Option (Int × Nat × Task)) = some (b, d, f)) :
    a = b ∧ c = d ∧ e = f := by
  simp only [Option.some.injEq, Prod.mk.injEq] at h
  exact ⟨h.1, h.2.1, h.2.2⟩

theorem scanTasks_best (map : GameMap) (ax ay : Int) :
    ∀ (q : List Task) (i : Nat) (w : Int) (inv : List Nat)
      (best : Option (Int × Nat × Task)) (Q : List Task),
      (∀ d j t, best = some (d, j, t) → Q.get? j = some t) →
      (∀ k, Q.get? (i + k) = q.get? k) →
      ∀ d j t, (scanTasks map ax ay q i w inv best).2.2 = some (d, j, t) →
        Q.get? j = some t
  | [], _, _, _, _, _, hbest, _, d, j, t, h => hbest d j t h
  | task :: rest, i, w, inv, best, Q, hbest, hQ, d, j, t, h => by
    have hQ0 : Q.get? i = some task := by
      have h0 := hQ 0
      simpa using h0
    have hQ' : ∀ k, Q.get? (i + 1 + k) = rest.get? k := by
      intro k
      have hk := hQ (k + 1)
      rw [show i + (k + 1) = i + 1 + k by omega] at hk
      exact hk
    simp only [scanTasks] at h
    split at h
    · split at h
      · refine scanTasks_best map ax ay rest (i + 1) w inv _ Q ?_ hQ' d j t h
        intro d' j' t' hb
        split at hb
        · obtain ⟨-, hj, ht⟩ := some_triple_inj hb
          subst hj; subst ht
          exact hQ0
        · split at hb
          · obtain ⟨-, hj, ht⟩ := some_triple_inj hb
            subst hj; subst ht
            exact hQ0
          · exact hbest _ _ _ hb
      · exact scanTasks_best map ax ay rest (i + 1) w (inv ++ [i]) best Q
          hbest hQ' d j t h
    · split at h
      · refine scanTasks_best map ax ay rest (i + 1) w inv _ Q ?_ hQ' d j t h
        intro d' j' t' hb
        split at hb
        · obtain ⟨-, hj, ht⟩ := some_triple_inj hb
          subst hj; subst ht
          exact hQ0
        · split at hb
          · obtain ⟨-, hj, ht⟩ := some_triple_inj hb
            subst hj; subst ht
            exact hQ0
          · exact hbest _ _ _ hb
      · exact scanTasks_best map ax ay rest (i + 1)
          (w + buildCostOpt task.buildType) (inv ++ [i]) best Q hbest hQ' d j t h

theorem tposA_of_task {a : Agent} {t : Task} (h : a.currentTask = some t) :
    tposA a = [(t.x, t.y)] := by
  unfold tposA
  rw [h]

theorem tposA_of_none {a : Agent} (h : a.currentTask = none) :
    tposA a = [] := by
  unfold tposA
  rw [h]

theorem mem_taskPositions {p : Pos} {agents : List Agent} :
    p ∈ taskPositions agents ↔
      ∃ a ∈ agents, ∃ t, a.currentTask = some t ∧ p = (t.x, t.y) := by
  simp only [taskPositions, List.mem_flatMap]
  constructor
  · rintro ⟨a, ha, hp⟩
    refine ⟨a, ha, ?_⟩
    unfold tposA at hp
    split at hp
    · rename_i t ht
      rcases List.mem_singleton.1 hp with rfl
      exact ⟨t, ht, rfl⟩
    · cases hp
  · rintro ⟨a, ha, t, ht, rfl⟩
    refine ⟨a, ha, ?_⟩
    rw [tposA_of_task ht]
    exact List.mem_singleton.2 rfl

theorem coherentA_clearTarget (x : Agent) : CoherentA (clearTarget x) := by
  intro t ht
  exact Option.noConfusion (show (none : Option Task) = some t from ht)

theorem agentScanBranch_subperm (agent : Agent) (ctx : TickCtx) :
    (qpos (agentScanBranch agent ctx).2.taskQueue ++
      tposA (agentScanBranch agent ctx).1).Subperm
      (qpos ctx.taskQueue ++ tposA agent) := by
  simp only [agentScanBranch]
  split
  · split
    · rename_i d bi bt hbest
      have hget : ctx.taskQueue.get? bi = some bt :=
        scanTasks_best ctx.map agent.x agent.y ctx.taskQueue 0 ctx.wood [] none
          ctx.taskQueue (by intro d' j' t' hb; cases hb)
          (by intro k; rw [Nat.zero_add]) d bi bt hbest
      have hperm := (perm_cons_eraseIdx ctx.taskQueue bi bt hget).map
        (fun t => (t.x, t.y))
      refine List.Subperm.trans ?_
        ((List.sublist_append_left (qpos ctx.taskQueue) (tposA agent)).subperm)
      show (qpos (ctx.taskQueue.eraseIdx bi) ++ [(bt.x, bt.y)]).Subperm
        (qpos ctx.taskQueue)
      refine List.Perm.subperm ?_
      exact (List.perm_append_singleton _ _).trans hperm.symm
    · have hun : ((ctx.taskQueue.enum.filter fun p =>
          decide (p.1 ∈ ([] : List Nat))).map Prod.snd) = [] := by
        simp
      show (qpos (((ctx.taskQueue.enum.filter _).map Prod.snd) ++
          ((ctx.taskQueue.enum.filter fun p =>
            decide (p.1 ∈ ([] : List Nat))).map Prod.snd)) ++
          tposA agent).Subperm (qpos ctx.taskQueue ++ tposA agent)
      rw [hun, List.append_nil]
      refine List.Sublist.subperm (List.Sublist.append ?_ (List.Sublist.refl _))
      exact (enum_filter_map_sublist ctx.taskQueue _).map _
  · exact List.Subperm.refl _

theorem agentWorkBranch_subperm (tx ty : Int) (agent : Agent) (ctx : TickCtx) :
    (qpos (agentWorkBranch tx ty agent ctx).2.taskQueue ++
      tposA (agentWorkBranch tx ty agent ctx).1).Subperm
      (qpos ctx.taskQueue ++ tposA agent) := by
  have key : (agentWorkBranch tx ty agent ctx).2.taskQueue = ctx.taskQueue ∧
      tposA (agentWorkBranch tx ty agent ctx).1 = [] := by
    simp only [agentWorkBranch]
    split
    · exact ⟨rfl, rfl⟩
    · split
      · split
        · split
          · exact ⟨announceCtx_taskQueue _ _, rfl⟩
          · exact ⟨rfl, rfl⟩
        · exact ⟨rfl, rfl⟩
      · exact ⟨rfl, rfl⟩
  rw [key.1, key.2, List.append_nil]
  exact (List.sublist_append_left _ _).subperm

theorem abandonCtx_subperm (agent : Agent) (ctx : TickCtx) :
    (qpos (abandonCtx agent ctx).taskQueue ++
      tposA (clearTarget { agent with state := .idle })).Subperm
      (qpos ctx.taskQueue ++ tposA agent) := by
  simp only [abandonCtx]
  split
  · rename_i t ht
    split
    · show (qpos ctx.taskQueue ++ []).Subperm (qpos ctx.taskQueue ++ tposA agent)
      rw [List.append_nil]
      exact (List.sublist_append_left _ _).subperm
    · show (qpos (ctx.taskQueue ++ [t]) ++ []).Subperm
        (qpos ctx.taskQueue ++ tposA agent)
      rw [List.append_nil, tposA_of_task ht]
      refine List.Perm.subperm ?_
      show ((ctx.taskQueue ++ [t]).map fun u => (u.x, u.y)).Perm
        (qpos ctx.taskQueue ++ [(t.x, t.y)])
      rw [List.map_append]
      exact List.Perm.refl _
  · show (qpos ctx.taskQueue ++ []).Subperm (qpos ctx.taskQueue ++ tposA agent)
    rw [List.append_nil]
    exact (List.sublist_append_left _ _).subperm

theorem agentMoveBranch_subperm (W H tx ty : Int) (agent : Agent)
    (ctx : TickCtx) :
    (qpos (agentMoveBranch W H tx ty agent ctx).2.taskQueue ++
      tposA (agentMoveBranch W H tx ty agent ctx).1).Subperm
      (qpos ctx.taskQueue ++ tposA agent) := by
  simp only [agentMoveBranch]
  split
  · split
    · exact List.Subperm.refl _
    · exact abandonCtx_subperm agent ctx
  · exact abandonCtx_subperm agent ctx

theorem updateAgent_subperm (W H : Int) (ctx : TickCtx) (a : Agent) :
    (qpos (updateAgent W H ctx a).2.taskQueue ++
      tposA (updateAgent W H ctx a).1).Subperm
      (qpos ctx.taskQueue ++ tposA a) := by
  simp only [updateAgent]
  split
  · split
    · exact agentWorkBranch_subperm _ _ _ _
    · exact agentMoveBranch_subperm _ _ _ _ _ _
  · exact agentScanBranch_subperm _ _

theorem agentWorkBranch_coherentA (tx ty : Int) (agent : Agent)
    (ctx : TickCtx) : CoherentA (agentWorkBranch tx ty agent ctx).1 := by
  simp only [agentWorkBranch]
  split
  · exact coherentA_clearTarget _
  · split
    · split
      · split
        · exact coherentA_clearTarget _
        · exact coherentA_clearTarget _
      · exact coherentA_clearTarget _
    · exact coherentA_clearTarget _

theorem agentMoveBranch_coherentA (W H tx ty : Int) (agent : Agent)
    (ctx : TickCtx) (hc : CoherentA agent) :
    CoherentA (agentMoveBranch W H tx ty agent ctx).1 := by
  simp only [agentMoveBranch]
  split
  · split
    · intro t ht
      exact hc t ht
    · exact coherentA_clearTarget _
  · exact coherentA_clearTarget _

theorem agentScanBranch_coherentA (agent : Agent) (ctx : TickCtx)
    (hc : CoherentA agent) : CoherentA (agentScanBranch agent ctx).1 := by
  simp only [agentScanBranch]
  split
  · split
    · rename_i d bi bt hbest
      intro t ht
      have h2 : some bt = some t := ht
      cases h2
      exact ⟨rfl, rfl⟩
    · intro t ht
      exact hc t ht
  · intro t ht
    exact hc t ht

theorem updateAgent_coherentA (W H : Int) (ctx : TickCtx) (a : Agent)
    (hc : CoherentA a) : CoherentA (updateAgent W H ctx a).1 := by
  simp only [updateAgent]
  split
  · split
    · exact agentWorkBranch_coherentA _ _ _ _
    · exact agentMoveBranch_coherentA _ _ _ _ _ _ hc
  · exact agentScanBranch_coherentA _ _ hc

theorem agentsLoop_subperm (W H : Int) :
    ∀ (agents : List Agent) (ctx : TickCtx),
      (qpos (agentsLoop W H agents ctx).2.taskQueue ++
        taskPositions (agentsLoop W H agents ctx).1).Subperm
        (qpos ctx.taskQueue ++ taskPositions agents)
  | [], ctx => List.Subperm.refl _
  | a :: rest, ctx => by
    have h1 := updateAgent_subperm W H ctx a
    have h2 := agentsLoop_subperm W H rest (updateAgent W H ctx a).2
    show (qpos (agentsLoop W H rest (updateAgent W H ctx a).2).2.taskQueue ++
        (tposA (updateAgent W H ctx a).1 ++
          taskPositions (agentsLoop W H rest (updateAgent W H ctx a).2).1)).Subperm
      (qpos ctx.taskQueue ++ (tposA a ++ taskPositions rest))
    have p1 : (qpos (agentsLoop W H rest (updateAgent W H ctx a).2).2.taskQueue ++
        (tposA (updateAgent W H ctx a).1 ++
          taskPositions (agentsLoop W H rest (updateAgent W H ctx a).2).1)).Perm
        (tposA (updateAgent W H ctx a).1 ++
          (qpos (agentsLoop W H rest (updateAgent W H ctx a).2).2.taskQueue ++
            taskPositions (agentsLoop W H rest (updateAgent W H ctx a).2).1)) := by
      rw [← List.append_assoc, ← List.append_assoc]
      exact List.Perm.append_right _ List.perm_append_comm
    have s1 : (tposA (updateAgent W H ctx a).1 ++
        (qpos (agentsLoop W H rest (updateAgent W H ctx a).2).2.taskQueue ++
          taskPositions (agentsLoop W H rest (updateAgent W H ctx a).2).1)).Subperm
        (tposA (updateAgent W H ctx a).1 ++
          (qpos (updateAgent W H ctx a).2.taskQueue ++ taskPositions rest)) :=
      (List.subperm_append_left _).mpr h2
    have p2 : (tposA (updateAgent W H ctx a).1 ++
        (qpos (updateAgent W H ctx a).2.taskQueue ++ taskPositions rest)).Perm
        ((qpos (updateAgent W H ctx a).2.taskQueue ++
          tposA (updateAgent W H ctx a).1) ++ taskPositions rest) := by
      rw [← List.append_assoc]
      exact List.Perm.append_right _ List.perm_append_comm
    have s2 : ((qpos (updateAgent W H ctx a).2.taskQueue ++
        tposA (updateAgent W H ctx a).1) ++ taskPositions rest).Subperm
        ((qpos ctx.taskQueue ++ tposA a) ++ taskPositions rest) :=
      (List.subperm_append_right _).mpr h1
    nth_rewrite 2 [List.append_assoc] at s2
    exact (p1.subperm.trans (s1.trans (p2.subperm.trans s2)))

theorem agentsLoop_coherent (W H : Int) :
    ∀ (agents : List Agent) (ctx : TickCtx),
      (∀ a ∈ agents, CoherentA a) →
      ∀ a ∈ (agentsLoop W H agents ctx).1, CoherentA a := by
  intro agents
  induction agents with
  | nil => intro ctx h a ha; cases ha
  | cons b rest ih =>
    intro ctx h a ha
    rcases List.mem_cons.1 ha with rfl | ha
    · exact updateAgent_coherentA W H ctx b (h b (List.mem_cons_self _ _))
    · exact ih _ (fun c hc => h c (List.mem_cons_of_mem _ hc)) a ha

theorem tickSpawn_taskPositions (g : Nat → ℚ) (W H n wid : Int)
    (agents : List Agent) (ridx : Nat) (ctx : TickCtx) :
    taskPositions (tickSpawn g W H n wid agents ridx ctx).1 =
      taskPositions agents := by
  simp only [tickSpawn]
  split
  · split
    · split
      · split
        · show taskPositions (agents ++ [_]) = taskPositions agents
          simp [taskPositions, tposA]
        · rfl
      · rfl
    · rfl
  · rfl

theorem tickSpawn_coherent (g : Nat → ℚ) (W H n wid : Int)
    (agents : List Agent) (ridx : Nat) (ctx : TickCtx)
    (h : ∀ a ∈ agents, CoherentA a) :
    ∀ a ∈ (tickSpawn g W H n wid agents ridx ctx).1, CoherentA a := by
  simp only [tickSpawn]
  split
  · split
    · split
      · split
        · intro a ha
          rcases List.mem_append.1 ha with ha | ha
          · exact h a ha
          · rcases List.mem_singleton.1 ha with rfl
            intro t ht
            exact Option.noConfusion (show (none : Option Task) = some t from ht)
        · exact h
      · exact h
    · exact h
  · exact h

theorem taskPositions_map_isWarm (l : List Agent) (f : Agent → Bool) :
    taskPositions (l.map fun a => { a with isWarm := f a }) =
      taskPositions l := by
  induction l with
  | nil => rfl
  | cons a rest ih =>
    show tposA { a with isWarm := f a } ++
        taskPositions (rest.map fun a => { a with isWarm := f a }) =
      tposA a ++ taskPositions rest
    rw [ih]
    rfl

theorem tick_QInv (g : Nat → ℚ) (now : Int) (s : GameState) (h : QInv s) :
    QInv (tick g now s) := by
  obtain ⟨hnd, hcoh⟩ := h
  unfold tick
  split
  · exact ⟨hnd, hcoh⟩
  · have hloop := agentsLoop_subperm s.gridWidth s.gridHeight
      (tickSpawn g s.gridWidth s.gridHeight (s.tickCount + 1) s.workerIdCounter
        s.agents
        (tickPropagation g s.gridWidth s.gridHeight (s.tickCount + 1)
          { map := s.map, wood := s.wood, taskQueue := s.taskQueue,
            announcements := s.announcements, annIdCounter := s.annIdCounter,
            now := now }).2
        (tickPropagation g s.gridWidth s.gridHeight (s.tickCount + 1)
          { map := s.map, wood := s.wood, taskQueue := s.taskQueue,
            announcements := s.announcements, annIdCounter := s.annIdCounter,
            now := now }).1).1
      (tickSpawn g s.gridWidth s.gridHeight (s.tickCount + 1) s.workerIdCounter
        s.agents
        (tickPropagation g s.gridWidth s.gridHeight (s.tickCount + 1)
          { map := s.map, wood := s.wood, taskQueue := s.taskQueue,
            announcements := s.announcements, annIdCounter := s.annIdCounter,
            now := now }).2
        (tickPropagation g s.gridWidth s.gridHeight (s.tickCount + 1)
          { map := s.map, wood := s.wood, taskQueue := s.taskQueue,
            announcements := s.announcements, annIdCounter := s.annIdCounter,
            now := now }).1).2.1
    rw [tickSpawn_taskPositions, tickSpawn_ctx_taskQueue,
      tickPropagation_taskQueue] at hloop
    refine ⟨?_, ?_⟩
    · refine subperm_nodup ?_ hnd
      refine List.Subperm.trans (List.Perm.subperm ?_) hloop
      show (qpos _ ++ taskPositions (List.map _ _)).Perm _
      rw [taskPositions_map_isWarm]
    · intro a ha
      obtain ⟨b, hb, rfl⟩ := List.mem_map.1 ha
      have hcb := agentsLoop_coherent s.gridWidth s.gridHeight _ _
        (tickSpawn_coherent g s.gridWidth s.gridHeight (s.tickCount + 1)
          s.workerIdCounter s.agents _ _ hcoh) b hb
      intro t ht
      exact hcb t ht

theorem not_mem_combined (s : GameState) (x y : Int)
    (hq : ¬ (s.taskQueue.any fun task => task.x = x ∧ task.y = y) = true)
    (hg : noAgentTargets s x y) (hcoh : Coherent s.agents) :
    ¬ (x, y) ∈ qpos s.taskQueue ++ taskPositions s.agents := by
  intro hm
  rcases List.mem_append.1 hm with hm | hm
  · obtain ⟨t, ht, hpt⟩ := List.mem_map.1 hm
    have hxy : t.x = x ∧ t.y = y := by
      have h2 := Prod.mk.injEq t.x t.y x y ▸ hpt
      exact h2
    exact hq (List.any_eq_true.2 ⟨t, ht, decide_eq_true hxy⟩)
  · obtain ⟨a, ha, t, ht, hpt⟩ := mem_taskPositions.1 hm
    have hxy : t.x = x ∧ t.y = y := by
      have h2 := Prod.mk.injEq t.x t.y x y ▸ hpt.symm
      exact h2
    have hco := hcoh a ha t ht
    refine hg a ha ⟨?_, ?_⟩
    · rw [hco.1, hxy.1]
    · rw [hco.2, hxy.2]

theorem nodup_append_task (q : List Task) (agents : List Agent) (tsk : Task)
    (hnd : (qpos q ++ taskPositions agents).Nodup)
    (hmem : ¬ (tsk.x, tsk.y) ∈ qpos q ++ taskPositions agents) :
    (qpos (q ++ [tsk]) ++ taskPositions agents).Nodup := by
  have h2 : qpos (q ++ [tsk]) = qpos q ++ [(tsk.x, tsk.y)] := by
    show (q ++ [tsk]).map _ = _
    rw [List.map_append]
    rfl
  rw [h2]
  have hperm : ((qpos q ++ [(tsk.x, tsk.y)]) ++ taskPositions agents).Perm
      ((tsk.x, tsk.y) :: (qpos q ++ taskPositions agents)) :=
    List.Perm.append_right _ (List.perm_append_singleton _ _)
  exact hperm.symm.nodup (List.Nodup.cons hmem hnd)

theorem queueChopTask_QInv (x y : Int) (s : GameState) (h : QInv s)
    (hg : noAgentTargets s x y) : QInv (queueChopTask x y s) := by
  obtain ⟨hnd, hcoh⟩ := h
  unfold queueChopTask
  split
  · exact ⟨hnd, hcoh⟩
  · split
    · exact ⟨hnd, hcoh⟩
    · rename_i hq _
      refine ⟨?_, hcoh⟩
      exact nodup_append_task s.taskQueue s.agents _ hnd
        (not_mem_combined s x y hq hg hcoh)

theorem buildAt_QInv (x y : Int) (s : GameState) (h : QInv s)
    (hg : noAgentTargets s x y) : QInv (buildAt x y s) := by
  obtain ⟨hnd, hcoh⟩ := h
  unfold buildAt
  split
  · exact ⟨hnd, hcoh⟩
  · split
    · exact ⟨hnd, hcoh⟩
    · split
      · exact ⟨hnd, hcoh⟩
      · split
        · exact ⟨hnd, hcoh⟩
        · rename_i bt _ hq _
          refine ⟨?_, hcoh⟩
          exact nodup_append_task s.taskQueue s.agents _ hnd
            (not_mem_combined s x y hq hg hcoh)

theorem initializeGame_QInv (g : Nat → ℚ) (w h : Int) (s : GameState) :
    QInv (initializeGame g w h s) := by
  refine ⟨?_, ?_⟩
  · exact List.nodup_nil
  · intro a ha t ht
    rcases List.mem_singleton.1 ha with rfl
    exact Option.noConfusion (show (none : Option Task) = some t from ht)

theorem greach_QInv : ∀ s : GameState, GReach s → QInv s := by
  intro s h
  induction h with
  | boot g w h hw hh => exact initializeGame_QInv g w h _
  | reinit g w h hw hh hr ih => exact initializeGame_QInv g w h _
  | tickStep g now hr ih => exact tick_QInv g now _ ih
  | startStep hr ih => exact ih
  | stopStep hr ih => exact ih
  | toggleStep hr ih => exact ih
  | selectBuildStep t hr ih => exact ih
  | queueChopStep x y hr hg ih => exact queueChopTask_QInv x y _ ih hg
  | buildAtStep x y hr hg ih => exact buildAt_QInv x y _ ih hg

/-- C2 (amended): CONFIRMED under the isTaskQueued guard. In every state
reachable by ticks and by commands in which each enqueue (queueChopTask or
buildAt) is issued only on a tile no agent currently targets — the agent
half of the isTaskQueued check the UI performs, the queue half being
re-checked by the commands themselves — no two entries of the task queue
share the same (x, y). The unguarded original claim is refuted by
claim_C2_duplicate_positions. -/
theorem claim_C2_unique_positions : ∀ s : GameState, GReach s →
    (queuePositions s).Nodup := by
  intro s h
  exact List.Nodup.of_append_left (greach_QInv s h).1

theorem claim_C2_unique_positions_witness :
    (queuePositions (initializeGame czero 3 3 defaultStore)).Nodup :=
  claim_C2_unique_positions (initializeGame czero 3 3 defaultStore)
    (GReach.boot czero 3 3 (by decide) (by decide))

section BFSCorrect

variable {map : GameMap} {W H : Int} {start target : Pos}

theorem walk_trans {s p q : Pos} {n m : Nat}
    (h1 : Walk map W H target s p n) (h2 : Walk map W H target p q m) :
    Walk map W H target s q (n + m) := by
  induction h2 with
  | nil => exact h1
  | cons hw hadj hok ih => exact Walk.cons ih hadj hok

theorem walk_zero {s p : Pos} (h : Walk map W H target s p 0) : p = s := by
  cases h
  rfl

theorem minD_unique {s p : Pos} {n m : Nat}
    (h1 : MinD map W H target s p n) (h2 : MinD map W H target s p m) :
    n = m :=
  Nat.le_antisymm (h1.2 m h2.1) (h2.2 n h1.1)

theorem exists_minD {s p : Pos} :
    ∀ n, Walk map W H target s p n → ∃ k, MinD map W H target s p k := by
  intro n
  induction n using Nat.strong_induction_on with
  | _ n ih =>
    intro hw
    by_cases hmin : ∀ m, Walk map W H target s p m → n ≤ m
    · exact ⟨n, hw, hmin⟩
    · push_neg at hmin
      obtain ⟨m, hm, hlt⟩ := hmin
      exact ih m hlt hm

theorem minD_refl {s : Pos} : MinD map W H target s s 0 :=
  ⟨Walk.nil s, fun m _ => Nat.zero_le m⟩

theorem minD_succ_pred {s q : Pos} {k : Nat}
    (h : MinD map W H target s q (k + 1)) :
    ∃ p, MinD map W H target s p k ∧ Adj p q ∧ StepOk map W H target q := by
  obtain ⟨hw, hmin⟩ := h
  cases hw with
  | cons hw' hadj hok =>
    rename_i p
    obtain ⟨dp, hdp⟩ := exists_minD _ hw'
    have h1 : dp ≤ k := hdp.2 k hw'
    have h2 : Walk map W H target s q (dp + 1) := Walk.cons hdp.1 hadj hok
    have h3 : k + 1 ≤ dp + 1 := hmin _ h2
    have h4 : dp = k := by omega
    rw [h4] at hdp
    exact ⟨p, hdp, hadj, hok⟩

theorem forall₂_mem_left {α β : Type} {R : α → β → Prop}
    {l : List α} {l' : List β} (h : List.Forall₂ R l l') :
    ∀ a ∈ l, ∃ b ∈ l', R a b := by
  induction h with
  | nil => intro a ha; cases ha
  | cons hR hF ih =>
    intro a ha
    rcases List.mem_cons.1 ha with rfl | ha
    · exact ⟨_, List.mem_cons_self _ _, hR⟩
    · obtain ⟨b, hb, hRb⟩ := ih a ha
      exact ⟨b, List.mem_cons_of_mem _ hb, hRb⟩

theorem forall₂_replicate {α β : Type} {R : α → β → Prop} (v : β) :
    ∀ (l : List α), (∀ x ∈ l, R x v) →
      List.Forall₂ R l (List.replicate l.length v)
  | [], _ => List.Forall₂.nil
  | a :: rest, h => by
    refine List.Forall₂.cons (h a (List.mem_cons_self _ _)) ?_
    exact forall₂_replicate v rest fun x hx => h x (List.mem_cons_of_mem _ hx)

theorem pairwise_replicate_le (n v : Nat) :
    (List.replicate n v).Pairwise (fun a b => a ≤ b) := by
  induction n with
  | zero => exact List.Pairwise.nil
  | succ m ih =>
    refine List.pairwise_cons.2 ⟨?_, ih⟩
    intro b hb
    rw [List.eq_of_mem_replicate hb]

theorem length_flatMap_const {α β : Type} (l : List α) (f : α → List β)
    (m : Nat) (h : ∀ a ∈ l, (f a).length = m) :
    (l.flatMap f).length = l.length * m := by
  induction l with
  | nil => simp
  | cons a rest ih =>
    rw [List.flatMap_cons, List.length_append, h a (List.mem_cons_self _ _),
      ih (fun x hx => h x (List.mem_cons_of_mem _ hx))]
    show m + rest.length * m = (rest.length + 1) * m
    ring

theorem length_allCells (W H : Int) :
    (allCells W H).length = H.toNat * W.toNat := by
  unfold allCells
  rw [length_flatMap_const _ _ W.toNat
    (fun a _ => by rw [List.length_map, List.length_range]),
    List.length_range]

theorem mem_allCells {p : Pos} (h : inb W H p) : p ∈ allCells W H := by
  obtain ⟨h1, h2, h3, h4⟩ := h
  unfold allCells
  rw [List.mem_flatMap]
  refine ⟨p.2.toNat, ?_, ?_⟩
  · rw [List.mem_range]; omega
  · rw [List.mem_map]
    refine ⟨p.1.toNat, ?_, ?_⟩
    · rw [List.mem_range]; omega
    · have e1 : (p.1.toNat : Int) = p.1 := Int.toNat_of_nonneg h1
      have e2 : (p.2.toNat : Int) = p.2 := Int.toNat_of_nonneg h3
      rw [e1, e2]

theorem inbCount_le (V : List Pos) (hnd : V.Nodup) :
    inbCount W H V ≤ H.toNat * W.toNat := by
  unfold inbCount
  rw [← length_allCells W H]
  refine ((hnd.filter _).subperm ?_).length_le
  intro p hp
  have h2 := List.of_mem_filter hp
  have h3 : 0 ≤ p.1 ∧ p.1 < W ∧ 0 ≤ p.2 ∧ p.2 < H := of_decide_eq_true h2
  exact mem_allCells h3

theorem inbCount_cons_inb {p : Pos} (l : List Pos) (h : inb W H p) :
    inbCount W H (p :: l) = inbCount W H l + 1 := by
  have hd : (decide (0 ≤ p.1 ∧ p.1 < W ∧ 0 ≤ p.2 ∧ p.2 < H)) = true :=
    decide_eq_true (show 0 ≤ p.1 ∧ p.1 < W ∧ 0 ≤ p.2 ∧ p.2 < H from h)
  unfold inbCount
  rw [List.filter_cons, hd]
  simp

theorem cover (V F : List Pos) (a : Nat)
    (hstart : start ∈ V)
    (hclosed : ∀ p ∈ V, p ∉ F → ∀ q, Adj p q → StepOk map W H target q →
      q ∈ V)
    (hF : ∀ p ∈ F, ∀ k, MinD map W H target start p k → a ≤ k) :
    ∀ k, ∀ q, MinD map W H target start q k → q ∉ V → a + 1 ≤ k := by
  intro k
  induction k using Nat.strong_induction_on with
  | _ k ih =>
    intro q hq hqV
    cases k with
    | zero =>
      rw [walk_zero hq.1] at hqV
      exact absurd hstart hqV
    | succ k' =>
      obtain ⟨p, hp, hadj, hok⟩ := minD_succ_pred hq
      by_cases hpV : p ∈ V
      · by_cases hpF : p ∈ F
        · have := hF p hpF k' hp
          omega
        · exact absurd (hclosed p hpV hpF q hadj hok) hqV
      · have := ih k' (by omega) p hp hpV
        omega

theorem adj_step (c : Pos) (d : Int × Int) (hd : d ∈ directions) :
    Adj c (c.1 + d.1, c.2 + d.2) := by
  unfold Adj
  have h1 : c.1 + d.1 - c.1 = d.1 := by ring
  have h2 : c.2 + d.2 - c.2 = d.2 := by ring
  show (c.1 + d.1 - c.1, c.2 + d.2 - c.2) ∈ directions
  rw [h1, h2]
  exact hd

theorem reconstruct_spec
    (cf : List (Pos × Pos)) (hcf : CfOk map W H start target cf) :
    ∀ k curr c, alookup cf curr = some c →
      MinD map W H target start curr k →
      ∀ fuel, k ≤ fuel →
      ∃ step, reconstruct fuel cf start curr = step ∧
        alookup cf step = some start ∧
        Walk map W H target step curr (k - 1) := by
  intro k
  induction k using Nat.strong_induction_on with
  | _ k ih =>
    intro curr c hcc hk fuel hfuel
    obtain ⟨hadj, hok, hchain, k', hk'c, hk'curr⟩ := hcf curr c hcc
    have hkeq : k = k' + 1 := minD_unique hk hk'curr
    cases fuel with
    | zero => omega
    | succ fuel' =>
      have hred : reconstruct (fuel' + 1) cf start curr =
          if c = start then curr else reconstruct fuel' cf start c := by
        show (match alookup cf curr with
          | none => curr
          | some prev => if prev = start then curr
              else reconstruct fuel' cf start prev) = _
        rw [hcc]
      by_cases hcs : c = start
      · refine ⟨curr, by rw [hred, if_pos hcs], ?_, ?_⟩
        · rw [← hcs]; exact hcc
        · have h0 : k' = 0 := minD_unique hk'c (by rw [hcs]; exact minD_refl)
          rw [hkeq, h0]
          exact Walk.nil curr
      · have hcsome : (alookup cf c).isSome := by
          rcases hchain with h | h
          · exact absurd h hcs
          · exact h
        obtain ⟨c2, hc2⟩ := Option.isSome_iff_exists.1 hcsome
        obtain ⟨step, hstep, hsk, hwalk⟩ :=
          ih k' (by omega) c c2 hc2 hk'c fuel' (by omega)
        refine ⟨step, by rw [hred, if_neg hcs]; exact hstep, hsk, ?_⟩
        obtain ⟨-, -, -, k'', hk''⟩ := hcf c c2 hc2
        have hk'pos : k' = k'' + 1 := minD_unique hk'c hk''.2
        have hw2 : Walk map W H target step curr ((k' - 1) + 1) :=
          Walk.cons hwalk hadj hok
        rw [hkeq]
        have he : k' + 1 - 1 = (k' - 1) + 1 := by omega
        rw [he]
        exact hw2

theorem cfOk_extend {cf : List (Pos × Pos)} {c n : Pos} {a : Nat}
    (hcf : CfOk map W H start target cf)
    (hchain : c = start ∨ (alookup cf c).isSome)
    (hadjn : Adj c n) (hok : StepOk map W H target n)
    (hc : MinD map W H target start c a)
    (hdistn : MinD map W H target start n (a + 1)) :
    CfOk map W H start target ((n, c) :: cf) := by
  intro p q hpq
  rw [alookup_cons] at hpq
  split at hpq
  · rename_i hp
    cases hpq
    subst hp
    refine ⟨hadjn, hok, ?_, a, hc, hdistn⟩
    rcases hchain with h | h
    · exact Or.inl h
    · exact Or.inr (alookup_cons_isSome _ _ h)
  · obtain ⟨e1, e2, e3, k0, ek⟩ := hcf p q hpq
    refine ⟨e1, e2, ?_, k0, ek⟩
    rcases e3 with h | h
    · exact Or.inl h
    · exact Or.inr (alookup_cons_isSome _ _ h)

theorem dist_le_cfLength {V : List Pos} {cf : List (Pos × Pos)} {c : Pos}
    {a : Nat} (hcore : CoreInv map W H start target V cf) (hcV : c ∈ V)
    (hc : MinD map W H target start c a) : a ≤ cf.length := by
  rcases hcore.2.2.2.1 c hcV with h | h
  · have h0 : a = 0 := minD_unique hc (by rw [h]; exact minD_refl)
    omega
  · obtain ⟨c2, hc2⟩ := Option.isSome_iff_exists.1 h
    exact hcore.2.2.2.2.2.2 c c2 hc2 a hc

theorem coreInv_extend {V : List Pos} {cf : List (Pos × Pos)} {c n : Pos}
    {a : Nat} (hcore : CoreInv map W H start target V cf) (hcV : c ∈ V)
    (hnV : n ∉ V) (hnt : ¬ n = target) (hadjn : Adj c n)
    (hok : StepOk map W H target n) (hc : MinD map W H target start c a)
    (hdistn : MinD map W H target start n (a + 1)) :
    CoreInv map W H start target (n :: V) ((n, c) :: cf) := by
  have hcle : a ≤ cf.length := dist_le_cfLength hcore hcV hc
  refine ⟨?_, ?_, ?_, ?_, ?_, ?_, ?_⟩
  · exact List.nodup_cons.2 ⟨hnV, hcore.1⟩
  · exact List.mem_cons_of_mem _ hcore.2.1
  · intro hmem
    rcases List.mem_cons.1 hmem with h | h
    · exact hnt h.symm
    · exact hcore.2.2.1 h
  · intro p hp
    rcases List.mem_cons.1 hp with rfl | hp
    · right
      rw [alookup_cons, if_pos rfl]
      rfl
    · rcases hcore.2.2.2.1 p hp with h | h
      · exact Or.inl h
      · exact Or.inr (alookup_cons_isSome _ _ h)
  · intro p q hpq
    rw [alookup_cons] at hpq
    split at hpq
    · rename_i hp
      rw [← hp]
      exact List.mem_cons_self _ _
    · exact List.mem_cons_of_mem _ (hcore.2.2.2.2.1 p q hpq)
  · exact cfOk_extend hcore.2.2.2.2.2.1 (hcore.2.2.2.1 c hcV) hadjn hok hc
      hdistn
  · intro p q hpq k hk
    rw [alookup_cons] at hpq
    rw [List.length_cons]
    split at hpq
    · rename_i hp
      have hka : k = a + 1 := minD_unique hk (by rw [← hp]; exact hdistn)
      omega
    · exact Nat.le_succ_of_le (hcore.2.2.2.2.2.2 p q hpq k hk)

theorem expandDirs_spec (c : Pos) (a : Nat)
    (hc : MinD map W H target start c a) :
    ∀ (ds : List (Int × Int)) (V : List Pos) (cf : List (Pos × Pos))
      (acc : List Pos),
      (∀ d ∈ ds, d ∈ directions) →
      CoreInv map W H start target V cf →
      c ∈ V →
      (∀ n ∈ acc, n ∈ V ∧ MinD map W H target start n (a + 1)) →
      (∀ q, Adj c q → StepOk map W H target q → q ∉ V →
        MinD map W H target start q (a + 1)) →
      (∀ st, expandDirs map W H start target c ds V cf acc =
          ExpandResult.found st → GoodStep map W H start target st) ∧
      (∀ V' cf' acc', expandDirs map W H start target c ds V cf acc =
          ExpandResult.cont V' cf' acc' →
        CoreInv map W H start target V' cf' ∧
        (∀ n ∈ acc', n ∈ V' ∧ MinD map W H target start n (a + 1)) ∧
        (∀ p ∈ V, p ∈ V') ∧
        (∀ p ∈ V', p ∈ V ∨ p ∈ acc') ∧
        (∀ x ∈ acc, x ∈ acc') ∧
        inbCount W H V' + acc.length = inbCount W H V + acc'.length ∧
        (∀ d ∈ ds, StepOk map W H target (c.1 + d.1, c.2 + d.2) →
          (c.1 + d.1, c.2 + d.2) ∈ V'))
  | [], V, cf, acc, hds, hcore, hcV, hacc, hexact => by
    constructor
    · intro st h
      exact ExpandResult.noConfusion
        (show ExpandResult.cont V cf acc = ExpandResult.found st from h)
    · intro V' cf' acc' h
      have h2 : ExpandResult.cont V cf acc = ExpandResult.cont V' cf' acc' :=
        h
      injection h2 with e1 e2 e3
      subst e1; subst e2; subst e3
      exact ⟨hcore, hacc, fun p hp => hp, fun p hp => Or.inl hp,
        fun x hx => hx, rfl, fun d hd => absurd hd (List.not_mem_nil d)⟩
  | d :: ds', V, cf, acc, hds, hcore, hcV, hacc, hexact => by
    have hdmem : d ∈ directions := hds d (List.mem_cons_self _ _)
    have hds' : ∀ x ∈ ds', x ∈ directions :=
      fun x hx => hds x (List.mem_cons_of_mem _ hx)
    constructor
    · intro st h
      simp only [expandDirs] at h
      split at h
      · exact (expandDirs_spec c a hc ds' V cf acc hds' hcore hcV hacc
          hexact).1 st h
      · rename_i hnV
        split at h
        · exact (expandDirs_spec c a hc ds' V cf acc hds' hcore hcV hacc
            hexact).1 st h
        · rename_i hoob
          split at h
          · exact (expandDirs_spec c a hc ds' V cf acc hds' hcore hcV hacc
              hexact).1 st h
          · rename_i hblk
            have hoob2 : ¬(c.1 + d.1 < 0 ∨ c.1 + d.1 ≥ W ∨
                c.2 + d.2 < 0 ∨ c.2 + d.2 ≥ H) := hoob
            push_neg at hoob2
            have hinb : inb W H (c.1 + d.1, c.2 + d.2) := by
              refine ⟨?_, ?_, ?_, ?_⟩
              · show (0 : Int) ≤ c.1 + d.1
                omega
              · show c.1 + d.1 < W
                omega
              · show (0 : Int) ≤ c.2 + d.2
                omega
              · show c.2 + d.2 < H
                omega
            have hok : StepOk map W H target (c.1 + d.1, c.2 + d.2) := by
              refine ⟨hinb, ?_⟩
              by_cases hnt : (c.1 + d.1, c.2 + d.2) = target
              · exact Or.inl hnt
              · cases hb : isBlocking map (c.1 + d.1) (c.2 + d.2) W H with
                | true => exact absurd ⟨hnt, hb⟩ hblk
                | false => exact Or.inr rfl
            have hadjn : Adj c (c.1 + d.1, c.2 + d.2) := adj_step c d hdmem
            have hdistn : MinD map W H target start (c.1 + d.1, c.2 + d.2)
                (a + 1) := hexact _ hadjn hok hnV
            have hcle : a ≤ cf.length := dist_le_cfLength hcore hcV hc
            split at h
            · rename_i hnt
              subst hnt
              have hcfok2 : CfOk map W H start
                  (c.1 + d.1, c.2 + d.2)
                  (((c.1 + d.1, c.2 + d.2), c) :: cf) :=
                cfOk_extend hcore.2.2.2.2.2.1 (hcore.2.2.2.1 c hcV) hadjn
                  hok hc hdistn
              obtain ⟨step, hstep, hskey, hwalk⟩ :=
                reconstruct_spec _ hcfok2 (a + 1) (c.1 + d.1, c.2 + d.2) c
                  (by rw [alookup_cons, if_pos rfl]) hdistn
                  ((((c.1 + d.1, c.2 + d.2), c) :: cf).length + 1)
                  (by rw [List.length_cons]; omega)
              injection h with h2
              subst h2
              rw [hstep]
              obtain ⟨hadj_s, hok_s, -, k0, hk0s, hk0step⟩ :=
                hcfok2 step start hskey
              have hk00 : k0 = 0 := minD_unique hk0s minD_refl
              rw [hk00] at hk0step
              refine ⟨a + 1, hdistn, hadj_s, hok_s, hk0step, hwalk, ?_⟩
              intro ℓ hℓ
              have hw1 : Walk map W H (c.1 + d.1, c.2 + d.2) start step 1 :=
                Walk.cons (Walk.nil start) hadj_s hok_s
              have hw2 := walk_trans hw1 hℓ
              have hle := hdistn.2 _ hw2
              omega
            · rename_i hnt
              have hcore2 := coreInv_extend hcore hcV hnV hnt hadjn hok hc
                hdistn
              have hacc2 : ∀ x ∈ acc ++ [(c.1 + d.1, c.2 + d.2)],
                  x ∈ (c.1 + d.1, c.2 + d.2) :: V ∧
                  MinD map W H target start x (a + 1) := by
                intro x hx
                rcases List.mem_append.1 hx with hx | hx
                · obtain ⟨hx1, hx2⟩ := hacc x hx
                  exact ⟨List.mem_cons_of_mem _ hx1, hx2⟩
                · rcases List.mem_singleton.1 hx with rfl
                  exact ⟨List.mem_cons_self _ _, hdistn⟩
              have hexact2 : ∀ q, Adj c q → StepOk map W H target q →
                  q ∉ (c.1 + d.1, c.2 + d.2) :: V →
                  MinD map W H target start q (a + 1) :=
                fun q h1 h2 hq =>
                  hexact q h1 h2 (fun hm => hq (List.mem_cons_of_mem _ hm))
              exact (expandDirs_spec c a hc ds'
                ((c.1 + d.1, c.2 + d.2) :: V)
                (((c.1 + d.1, c.2 + d.2), c) :: cf)
                (acc ++ [(c.1 + d.1, c.2 + d.2)]) hds' hcore2
                (List.mem_cons_of_mem _ hcV) hacc2 hexact2).1 st h
    · intro V' cf' acc' h
      simp only [expandDirs] at h
      split at h
      · rename_i hnV
        obtain ⟨h1, h2, h3, h4, h5, h6, h7⟩ :=
          (expandDirs_spec c a hc ds' V cf acc hds' hcore hcV hacc
            hexact).2 V' cf' acc' h
        refine ⟨h1, h2, h3, h4, h5, h6, ?_⟩
        intro d₀ hd₀ hok₀
        rcases List.mem_cons.1 hd₀ with rfl | hd₀
        · exact h3 _ hnV
        · exact h7 d₀ hd₀ hok₀
      · rename_i hnV
        split at h
        · rename_i hoob
          obtain ⟨h1, h2, h3, h4, h5, h6, h7⟩ :=
            (expandDirs_spec c a hc ds' V cf acc hds' hcore hcV hacc
              hexact).2 V' cf' acc' h
          refine ⟨h1, h2, h3, h4, h5, h6, ?_⟩
          intro d₀ hd₀ hok₀
          rcases List.mem_cons.1 hd₀ with rfl | hd₀
          · exfalso
            have hoob2 : (c.1 + d₀.1 < 0 ∨ c.1 + d₀.1 ≥ W ∨
                c.2 + d₀.2 < 0 ∨ c.2 + d₀.2 ≥ H) := hoob
            obtain ⟨hb1, hb2, hb3, hb4⟩ := hok₀.1
            have hb1' : (0 : Int) ≤ c.1 + d₀.1 := hb1
            have hb2' : c.1 + d₀.1 < W := hb2
            have hb3' : (0 : Int) ≤ c.2 + d₀.2 := hb3
            have hb4' : c.2 + d₀.2 < H := hb4
            rcases hoob2 with hx | hx | hx | hx <;> omega
          · exact h7 d₀ hd₀ hok₀
        · rename_i hoob
          have hoob2 : ¬(c.1 + d.1 < 0 ∨ c.1 + d.1 ≥ W ∨
              c.2 + d.2 < 0 ∨ c.2 + d.2 ≥ H) := hoob
          push_neg at hoob2
          have hinb : inb W H (c.1 + d.1, c.2 + d.2) := by
            refine ⟨?_, ?_, ?_, ?_⟩
            · show (0 : Int) ≤ c.1 + d.1
              omega
            · show c.1 + d.1 < W
              omega
            · show (0 : Int) ≤ c.2 + d.2
              omega
            · show c.2 + d.2 < H
              omega
          split at h
          · rename_i hblk
            obtain ⟨h1, h2, h3, h4, h5, h6, h7⟩ :=
              (expandDirs_spec c a hc ds' V cf acc hds' hcore hcV hacc
                hexact).2 V' cf' acc' h
            refine ⟨h1, h2, h3, h4, h5, h6, ?_⟩
            intro d₀ hd₀ hok₀
            rcases List.mem_cons.1 hd₀ with rfl | hd₀
            · exfalso
              rcases hok₀.2 with hx | hx
              · exact hblk.1 hx
              · have hb2 := hblk.2
                have hx' : isBlocking map (c.1 + d₀.1) (c.2 + d₀.2) W H =
                    false := hx
                have hb2' : isBlocking map (c.1 + d₀.1) (c.2 + d₀.2) W H =
                    true := hb2
                rw [hx'] at hb2'
                cases hb2'
            · exact h7 d₀ hd₀ hok₀
          · rename_i hblk
            have hok : StepOk map W H target (c.1 + d.1, c.2 + d.2) := by
              refine ⟨hinb, ?_⟩
              by_cases hnt : (c.1 + d.1, c.2 + d.2) = target
              · exact Or.inl hnt
              · cases hb : isBlocking map (c.1 + d.1) (c.2 + d.2) W H with
                | true => exact absurd ⟨hnt, hb⟩ hblk
                | false => exact Or.inr rfl
            have hadjn : Adj c (c.1 + d.1, c.2 + d.2) := adj_step c d hdmem
            have hdistn : MinD map W H target start (c.1 + d.1, c.2 + d.2)
                (a + 1) := hexact _ hadjn hok hnV
            split at h
            · exact ExpandResult.noConfusion h
            · rename_i hnt
              have hcore2 := coreInv_extend hcore hcV hnV hnt hadjn hok hc
                hdistn
              have hacc2 : ∀ x ∈ acc ++ [(c.1 + d.1, c.2 + d.2)],
                  x ∈ (c.1 + d.1, c.2 + d.2) :: V ∧
                  MinD map W H target start x (a + 1) := by
                intro x hx
                rcases List.mem_append.1 hx with hx | hx
                · obtain ⟨hx1, hx2⟩ := hacc x hx
                  exact ⟨List.mem_cons_of_mem _ hx1, hx2⟩
                · rcases List.mem_singleton.1 hx with rfl
                  exact ⟨List.mem_cons_self _ _, hdistn⟩
              have hexact2 : ∀ q, Adj c q → StepOk map W H target q →
                  q ∉ (c.1 + d.1, c.2 + d.2) :: V →
                  MinD map W H target start q (a + 1) :=
                fun q hq1 hq2 hq =>
                  hexact q hq1 hq2 (fun hm => hq (List.mem_cons_of_mem _ hm))
              obtain ⟨h1, h2, h3, h4, h5, h6, h7⟩ :=
                (expandDirs_spec c a hc ds'
                  ((c.1 + d.1, c.2 + d.2) :: V)
                  (((c.1 + d.1, c.2 + d.2), c) :: cf)
                  (acc ++ [(c.1 + d.1, c.2 + d.2)]) hds' hcore2
                  (List.mem_cons_of_mem _ hcV) hacc2 hexact2).2 V' cf' acc' h
              refine ⟨h1, h2, ?_, ?_, ?_, ?_, ?_⟩
              · exact fun p hp => h3 p (List.mem_cons_of_mem _ hp)
              · intro p hp
                rcases h4 p hp with hp2 | hp2
                · rcases List.mem_cons.1 hp2 with rfl | hp2
                  · exact Or.inr (h5 _ (List.mem_append.2
                      (Or.inr (List.mem_singleton.2 rfl))))
                  · exact Or.inl hp2
                · exact Or.inr hp2
              · exact fun x hx => h5 x (List.mem_append.2 (Or.inl hx))
              · rw [List.length_append, List.length_singleton,
                  inbCount_cons_inb V hinb] at h6
                omega
              · intro d₀ hd₀ hok₀
                rcases List.mem_cons.1 hd₀ with rfl | hd₀
                · exact h3 _ (List.mem_cons_self _ _)
                · exact h7 d₀ hd₀ hok₀

theorem forall₂_append {α β : Type} {R : α → β → Prop}
    {l₁ : List α} {l₂ : List β} (h : List.Forall₂ R l₁ l₂) :
    ∀ {l₃ : List α} {l₄ : List β}, List.Forall₂ R l₃ l₄ →
      List.Forall₂ R (l₁ ++ l₃) (l₂ ++ l₄) := by
  induction h with
  | nil => intro l₃ l₄ h2; exact h2
  | cons hR hF ih => intro l₃ l₄ h2; exact List.Forall₂.cons hR (ih h2)

theorem expand_invariants (V : List Pos) (cf : List (Pos × Pos)) (c : Pos)
    (rest : List Pos)
    (hInv : LoopInv map W H start target V cf (c :: rest)) :
    (∀ st, expandDirs map W H start target c directions V cf [] =
        ExpandResult.found st → GoodStep map W H start target st) ∧
    (∀ V' cf' enq, expandDirs map W H start target c directions V cf [] =
        ExpandResult.cont V' cf' enq →
      LoopInv map W H start target V' cf' (rest ++ enq) ∧
      inbCount W H V' = inbCount W H V + enq.length ∧
      inbCount W H V' ≤ H.toNat * W.toNat) := by
  obtain ⟨hcore, hQV, ⟨dQ, hF2, hPW, hSpread⟩, hclosed⟩ := hInv
  cases hF2 with
  | cons ha hF2' =>
    rename_i a dRest
    have hQdist : ∀ p ∈ c :: rest, ∀ k,
        MinD map W H target start p k → a ≤ k := by
      intro p hp k hk
      rcases List.mem_cons.1 hp with rfl | hp
      · have he := minD_unique hk ha
        omega
      · obtain ⟨dp, hdp, hR⟩ := forall₂_mem_left hF2' p hp
        have he : k = dp := minD_unique hk hR
        have hle : a ≤ dp := (List.pairwise_cons.1 hPW).1 dp hdp
        omega
    have hcV : c ∈ V := hQV c (List.mem_cons_self _ _)
    have hexact : ∀ q, Adj c q → StepOk map W H target q → q ∉ V →
        MinD map W H target start q (a + 1) := by
      intro q hadj hok hqV
      have hw : Walk map W H target start q (a + 1) :=
        Walk.cons ha.1 hadj hok
      obtain ⟨k, hk⟩ := exists_minD _ hw
      have h1 : k ≤ a + 1 := hk.2 _ hw
      have h2 : a + 1 ≤ k :=
        cover V (c :: rest) a hcore.2.1 hclosed hQdist k q hk hqV
      have he : k = a + 1 := by omega
      rw [← he]
      exact hk
    have hspec := expandDirs_spec c a ha directions V cf []
      (fun d hd => hd) hcore hcV (by intro n hn; cases hn) hexact
    refine ⟨hspec.1, ?_⟩
    intro V' cf' enq hres
    obtain ⟨h1, h2, h3, h4, h5, h6, h7⟩ := hspec.2 V' cf' enq hres
    have hbound : inbCount W H V' ≤ H.toNat * W.toNat := inbCount_le V' h1.1
    have hmeas : inbCount W H V' = inbCount W H V + enq.length := by
      have h6' := h6
      simp only [List.length_nil] at h6'
      omega
    refine ⟨⟨h1, ?_, ?_, ?_⟩, hmeas, hbound⟩
    · intro p hp
      rcases List.mem_append.1 hp with hp | hp
      · exact h3 p (hQV p (List.mem_cons_of_mem _ hp))
      · exact (h2 p hp).1
    · refine ⟨dRest ++ List.replicate enq.length (a + 1), ?_, ?_, ?_⟩
      · exact forall₂_append hF2'
          (forall₂_replicate _ enq (fun n hn => (h2 n hn).2))
      · refine List.pairwise_append.2
          ⟨List.Pairwise.of_cons hPW, pairwise_replicate_le _ _, ?_⟩
        intro x hx y hy
        rw [List.eq_of_mem_replicate hy]
        exact hSpread x (List.mem_cons_of_mem _ hx) a rfl
      · intro b hb a₀ ha₀
        have hble : b ≤ a + 1 := by
          rcases List.mem_append.1 hb with hb | hb
          · exact hSpread b (List.mem_cons_of_mem _ hb) a rfl
          · rw [List.eq_of_mem_replicate hb]
        have haa : a ≤ a₀ := by
          cases dRest with
          | nil =>
            rw [List.nil_append] at ha₀
            have hmem := List.mem_of_mem_head? ha₀
            rw [List.eq_of_mem_replicate hmem]
            omega
          | cons d₀ dR' =>
            rw [List.cons_append, List.head?_cons] at ha₀
            have he : some d₀ = some a₀ := ha₀
            injection he with he2
            have hpw := (List.pairwise_cons.1 hPW).1 d₀
              (List.mem_cons_self _ _)
            omega
        omega
    · intro p hpV' hpQ q hadj hok
      rcases h4 p hpV' with hpV | hpacc
      · by_cases hpc : p = c
        · subst hpc
          have hd : ((q.1 - p.1, q.2 - p.2)) ∈ directions := hadj
          have hcl := h7 (q.1 - p.1, q.2 - p.2) hd
          have heq : (p.1 + (q.1 - p.1), p.2 + (q.2 - p.2)) = q := by
            have e1 : p.1 + (q.1 - p.1) = q.1 := by ring
            have e2 : p.2 + (q.2 - p.2) = q.2 := by ring
            rw [e1, e2]
          rw [heq] at hcl
          exact hcl hok
        · have hpQold : p ∉ c :: rest := by
            intro hmem
            rcases List.mem_cons.1 hmem with h | h
            · exact hpc h
            · exact hpQ (List.mem_append.2 (Or.inl h))
          exact h3 q (hclosed p hpV hpQold q hadj hok)
      · exact absurd (List.mem_append.2 (Or.inr hpacc)) hpQ

theorem bfsLoop_good :
    ∀ (fuel : Nat) (V : List Pos) (cf : List (Pos × Pos)) (Q : List Pos)
      (step : Pos),
      LoopInv map W H start target V cf Q →
      bfsLoop map W H start target fuel V cf Q = some step →
      GoodStep map W H start target step
  | 0, _, _, _, step, _, h =>
    Option.noConfusion (show (none : Option Pos) = some step from h)
  | _ + 1, _, _, [], step, _, h =>
    Option.noConfusion (show (none : Option Pos) = some step from h)
  | fuel + 1, V, cf, c :: rest, step, hInv, h => by
    have hEI := expand_invariants V cf c rest hInv
    simp only [bfsLoop] at h
    cases hres : expandDirs map W H start target c directions V cf [] with
    | found st =>
      rw [hres] at h
      have h2 : some st = some step := h
      injection h2 with h3
      rw [← h3]
      exact hEI.1 st hres
    | cont V' cf' enq =>
      rw [hres] at h
      have h2 : bfsLoop map W H start target fuel V' cf' (rest ++ enq) =
          some step := h
      exact bfsLoop_good fuel V' cf' (rest ++ enq) step
        (hEI.2 V' cf' enq hres).1 h2

theorem bfsLoop_complete :
    ∀ (fuel : Nat) (V : List Pos) (cf : List (Pos × Pos)) (Q : List Pos),
      LoopInv map W H start target V cf Q →
      Q.length + (H.toNat * W.toNat - inbCount W H V) < fuel →
      (∃ k, Walk map W H target start target k) →
      ∃ st, bfsLoop map W H start target fuel V cf Q = some st
  | 0, _, _, _, _, hfuel, _ => absurd hfuel (by omega)
  | fuel + 1, V, cf, [], hInv, _, hreach => by
    exfalso
    obtain ⟨⟨hnd, hstart, htarget, hrest⟩, hQV, hQS, hclosed⟩ := hInv
    obtain ⟨k, hw⟩ := hreach
    have hall : ∀ p n, Walk map W H target start p n → p ∈ V := by
      intro p n hwp
      induction hwp with
      | nil => exact hstart
      | cons hw' hadj hok ih =>
        exact hclosed _ ih (List.not_mem_nil _) _ hadj hok
    exact htarget (hall target k hw)
  | fuel + 1, V, cf, c :: rest, hInv, hfuel, hreach => by
    have hEI := expand_invariants V cf c rest hInv
    cases hres : expandDirs map W H start target c directions V cf [] with
    | found st =>
      refine ⟨st, ?_⟩
      simp only [bfsLoop]
      rw [hres]
    | cont V' cf' enq =>
      obtain ⟨hInv', hmeas, hbound⟩ := hEI.2 V' cf' enq hres
      obtain ⟨st, hst⟩ := bfsLoop_complete fuel V' cf' (rest ++ enq) hInv'
        (by
          rw [List.length_append]
          rw [List.length_cons] at hfuel
          omega)
        hreach
      refine ⟨st, ?_⟩
      simp only [bfsLoop]
      rw [hres]
      exact hst

theorem loopInv_init (hst : ¬ start = target) :
    LoopInv map W H start target [start] [] [start] := by
  refine ⟨⟨?_, ?_, ?_, ?_, ?_, ?_, ?_⟩, ?_, ?_, ?_⟩
  · exact List.nodup_singleton start
  · exact List.mem_singleton.2 rfl
  · intro hmem
    exact hst (List.mem_singleton.1 hmem).symm
  · intro p hp
    exact Or.inl (List.mem_singleton.1 hp)
  · intro p q hpq
    exact Option.noConfusion (show (none : Option Pos) = some q from hpq)
  · intro p q hpq
    exact Option.noConfusion (show (none : Option Pos) = some q from hpq)
  · intro p q hpq k hk
    exact Option.noConfusion (show (none : Option Pos) = some q from hpq)
  · intro p hp
    exact hp
  · refine ⟨[0], ?_, ?_, ?_⟩
    · exact List.Forall₂.cons minD_refl List.Forall₂.nil
    · refine List.pairwise_cons.2 ⟨?_, List.Pairwise.nil⟩
      intro b hb
      cases hb
    · intro b hb a₀ ha₀
      have hb0 : b = 0 := by
        rcases List.mem_cons.1 hb with h | h
        · exact h
        · cases h
      omega
  · intro p hp hpQ q hadj hok
    exact absurd hp hpQ

end BFSCorrect

/-- C4: CONFIRMED. For every grid and in-bounds start and target: if the
start equals the target, findPath returns the start position itself; if no
4-connected walk through enterable cells (in-bounds, non-wall except that
the target cell itself is always enterable) reaches the target, it returns
none; otherwise it returns a cell adjacent to the start that lies on a
shortest such walk (the cell is at distance one from the start and at
distance exactly one less than the full shortest distance from the target);
and the BFS neighbor expansion order is the fixed list up, down, left,
right. -/
theorem claim_C4_findPath_correct (map : GameMap) (W H sx sy tx ty : Int)
    (_hs : inb W H (sx, sy)) (_ht : inb W H (tx, ty)) :
    (sx = tx ∧ sy = ty → findPath sx sy tx ty map W H = some (sx, sy)) ∧
    ((¬(sx = tx ∧ sy = ty)) →
      (¬ ∃ k, Walk map W H (tx, ty) (sx, sy) (tx, ty) k) →
      findPath sx sy tx ty map W H = none) ∧
    ((¬(sx = tx ∧ sy = ty)) →
      (∃ k, Walk map W H (tx, ty) (sx, sy) (tx, ty) k) →
      ∃ step m, findPath sx sy tx ty map W H = some step ∧
        Adj (sx, sy) step ∧ StepOk map W H (tx, ty) step ∧ 1 ≤ m ∧
        MinD map W H (tx, ty) (sx, sy) (tx, ty) m ∧
        MinD map W H (tx, ty) step (tx, ty) (m - 1)) ∧
    directions = [(0, -1), (0, 1), (-1, 0), (1, 0)] := by
  have hne_of : ¬(sx = tx ∧ sy = ty) → ¬((sx, sy) : Pos) = (tx, ty) := by
    intro hne h
    rw [Prod.mk.injEq] at h
    exact hne h
  refine ⟨?_, ?_, ?_, rfl⟩
  · intro he
    show (if sx = tx ∧ sy = ty then some ((sx, sy) : Pos) else _) =
      some (sx, sy)
    rw [if_pos he]
  · intro hne hunreach
    have hb : findPath sx sy tx ty map W H =
        bfsLoop map W H (sx, sy) (tx, ty) (2 * W.toNat * H.toNat + 2)
          [(sx, sy)] [] [(sx, sy)] := by
      show (if sx = tx ∧ sy = ty then _ else _) = _
      rw [if_neg hne]
    rw [hb]
    cases hres : bfsLoop map W H (sx, sy) (tx, ty)
        (2 * W.toNat * H.toNat + 2) [(sx, sy)] [] [(sx, sy)] with
    | none => rfl
    | some st =>
      exfalso
      have hgood := bfsLoop_good _ _ _ _ st (loopInv_init (hne_of hne)) hres
      obtain ⟨m, hm, -⟩ := hgood
      exact hunreach ⟨m, hm.1⟩
  · intro hne hreach
    have hb : findPath sx sy tx ty map W H =
        bfsLoop map W H (sx, sy) (tx, ty) (2 * W.toNat * H.toNat + 2)
          [(sx, sy)] [] [(sx, sy)] := by
      show (if sx = tx ∧ sy = ty then _ else _) = _
      rw [if_neg hne]
    have hfuel : ([(sx, sy)] : List Pos).length +
        (H.toNat * W.toNat - inbCount W H [(sx, sy)]) <
        2 * W.toNat * H.toNat + 2 := by
      have h2 : H.toNat * W.toNat - inbCount W H [(sx, sy)] ≤
          H.toNat * W.toNat := Nat.sub_le _ _
      have hcomm : H.toNat * W.toNat = W.toNat * H.toNat := Nat.mul_comm _ _
      have hC : 2 * W.toNat * H.toNat = 2 * (W.toNat * H.toNat) := by ring
      have h1 : ([(sx, sy)] : List Pos).length = 1 := rfl
      omega
    obtain ⟨st, hres⟩ := bfsLoop_complete (2 * W.toNat * H.toNat + 2)
      [(sx, sy)] [] [(sx, sy)] (loopInv_init (hne_of hne)) hfuel hreach
    have hgood := bfsLoop_good _ _ _ _ st (loopInv_init (hne_of hne)) hres
    obtain ⟨m, hm, hadj, hok, -, hstm⟩ := hgood
    refine ⟨st, m, by rw [hb]; exact hres, hadj, hok, ?_, hm, hstm⟩
    by_contra hm0
    have hm00 : m = 0 := by omega
    rw [hm00] at hm
    have hts := walk_zero hm.1
    exact hne_of hne hts.symm

theorem claim_C4_witness :
    findPath 0 0 0 0 [[{ type := TileType.grass, x := 0, y := 0 }]] 1 1 =
      some (0, 0) :=
  (claim_C4_findPath_correct [[{ type := TileType.grass, x := 0, y := 0 }]]
    1 1 0 0 0 0 ⟨by decide, by decide, by decide, by decide⟩
    ⟨by decide, by decide, by decide, by decide⟩).1 ⟨rfl, rfl⟩

end SpriteGame
